/-
Verification of the cache engine and request handler of kuanp/CachedProxy
(src/proxy.py), a caching forward HTTP proxy.

Shallow embedding conventions:
  * Timestamps, durations and byte sizes (Python floats / ints) are modelled
    as `Int`; only ordering and addition of these quantities matter here.
  * `blist.sortedlist` is modelled as a Lean `List` kept sorted by the
    relevant key; `sortedlist.add` inserts after all elements with an equal
    or smaller key, matching `bisect`-right insertion, and `pop(0)` takes
    the head.  `remove(x)` removes the first occurrence of `x`
    (`List.erase`); Python raises `ValueError` when `x` is absent, which is
    unreachable under the consistency invariant maintained by the cache.
  * The Python `dict` is modelled as an association list; `del d[k]` is
    `eraseKey` (Python raises `KeyError` when `k` is absent, unreachable
    under the same invariant).
  * Python objects are mutable and aliased: the same `CacheObject` sits in
    the map and in both sorted lists.  The one in-place mutation
    (`oldCache.lastAccessTime = timeNow` in `Cache.get`) is modelled by
    replacing the object in every structure that holds it.
  * The single non-reentrant `threading.Lock` is modelled by a `locked`
    flag in the state.  Acquiring an already-held lock blocks forever in a
    single-threaded execution; an operation that blocks forever (or raises)
    is modelled as returning `none`.
  * `time.time()` is modelled by an explicit `now : Int` parameter; one
    call of a public operation uses a single `now` value.
-/
import Mathlib

/-- `CacheObject` from src/proxy.py lines 32-43: one cached response with
its bookkeeping fields. -/
structure CacheObject where
  url : String
  lastAccessTime : Int
  expirationTime : Int
  size : Int
  data : String
  headers : List (String × String)
deriving DecidableEq, Repr

/-- Lookup in the model of the Python dict: value of the first pair whose
key equals `url`. -/
def lookupKey (url : String) : List (String × CacheObject) → Option CacheObject
  | [] => none
  | (k, v) :: rest => if k = url then some v else lookupKey url rest

/-- Model of `url in self.map.keys()`. -/
def containsKey (url : String) (m : List (String × CacheObject)) : Bool :=
  (lookupKey url m).isSome

/-- Model of `del self.map[url]`: drop the first pair whose key is `url`. -/
def eraseKey (url : String) : List (String × CacheObject) → List (String × CacheObject)
  | [] => []
  | (k, v) :: rest => if k = url then rest else (k, v) :: eraseKey url rest

/-- Model of the in-place mutation of the object stored under `url`:
replace the value of the first pair whose key is `url`. -/
def updateKey (url : String) (v : CacheObject) :
    List (String × CacheObject) → List (String × CacheObject)
  | [] => []
  | (k, w) :: rest => if k = url then (k, v) :: rest else (k, w) :: updateKey url v rest

/-- Model of `blist.sortedlist.add` with sort key `key`: insert after every
element whose key is `≤` the new element's key (bisect-right insertion). -/
def insortRight (key : CacheObject → Int) (a : CacheObject) : List CacheObject → List CacheObject
  | [] => [a]
  | b :: l => if key b ≤ key a then b :: insortRight key a l else a :: b :: l

/-- Model of the in-place mutation of an object aliased inside a sorted
list: replace the first occurrence of `old` by `new`, keeping its
position. -/
def replaceObj (old new : CacheObject) : List CacheObject → List CacheObject
  | [] => []
  | b :: l => if b = old then new :: l else b :: replaceObj old new l

/-- The state of `Cache` (src/proxy.py lines 77-91): configuration,
counters, the two sorted lists, the map, and the mutual-exclusion lock. -/
structure CacheState where
  maxDuration : Int
  minDuration : Int
  maxBytes : Int
  maxElems : Int
  numElems : Int
  numBytes : Int
  accessList : List CacheObject
  expireList : List CacheObject
  map : List (String × CacheObject)
  locked : Bool
deriving DecidableEq, Repr

namespace Cache

/-- `Cache.__init__` (lines 77-91): counters zero, lists and map empty, the
four configuration fields loaded from the settings source. -/
def init (cacheDuration cacheMinDuration cacheSizeBytes cacheSizeElements : Int) : CacheState :=
  { maxDuration := cacheDuration
    minDuration := cacheMinDuration
    maxBytes := cacheSizeBytes
    maxElems := cacheSizeElements
    numElems := 0
    numBytes := 0
    accessList := []
    expireList := []
    map := []
    locked := false }

/-- One round of the first loop of `Cache.checkCacheIntegrity` (lines
99-105): while over the element or byte budget, pop the head of
`accessList` (least recently accessed), remove it from `expireList` and the
map, and fix the counters.  `accessList.pop(0)` on an empty list raises
`IndexError`, modelled as `none`.  The while loop is expressed with an
explicit iteration bound `fuel` so that it is structurally recursive; every
iteration removes one entry from `accessList`, so the bound
`accessList.length + 1` supplied by `evictCapacity` below always suffices
and the out-of-fuel branch is unreachable from it. -/
def evictCapacityFuel : Nat → CacheState → Option CacheState
  | 0, _ => none
  | fuel + 1, s =>
    if s.numElems > s.maxElems ∨ s.numBytes > s.maxBytes then
      match s.accessList with
      | [] => none
      | toRemove :: rest =>
          evictCapacityFuel fuel { s with
            accessList := rest
            expireList := s.expireList.erase toRemove
            map := eraseKey toRemove.url s.map
            numBytes := s.numBytes - toRemove.size
            numElems := s.numElems - 1 }
    else some s

/-- The first loop of `Cache.checkCacheIntegrity` (lines 99-105). -/
def evictCapacity (s : CacheState) : Option CacheState :=
  evictCapacityFuel (s.accessList.length + 1) s

/-- One round of the second loop of `Cache.checkCacheIntegrity` (lines
107-114): while `numElems > 0` and the head of `expireList` is expired, pop
it, remove it from `accessList` and the map, and fix the counters.
Indexing `expireList[0]` on an empty list raises `IndexError`, modelled as
`none`.  Bounded by `fuel` exactly as `evictCapacityFuel`; every iteration
removes one entry from `expireList`. -/
def evictExpiryFuel (now : Int) : Nat → CacheState → Option CacheState
  | 0, _ => none
  | fuel + 1, s =>
    if s.numElems > 0 then
      match s.expireList with
      | [] => none
      | head :: rest =>
          if head.expirationTime < now then
            evictExpiryFuel now fuel { s with
              expireList := rest
              accessList := s.accessList.erase head
              map := eraseKey head.url s.map
              numBytes := s.numBytes - head.size
              numElems := s.numElems - 1 }
          else some s
    else some s

/-- The second loop of `Cache.checkCacheIntegrity` (lines 107-114). -/
def evictExpiry (now : Int) (s : CacheState) : Option CacheState :=
  evictExpiryFuel now (s.expireList.length + 1) s

/-- `Cache.checkCacheIntegrity` (lines 93-114): capacity eviction followed
by expiry eviction. -/
def checkCacheIntegrity (now : Int) (s : CacheState) : Option CacheState :=
  (evictCapacity s).bind (evictExpiry now)

/-- The insertion block of `Cache.cache` (lines 136-142): build the new
`CacheObject` with `expirationTime = accessTime + effDuration`, bump the
counters, add it to the map and both sorted lists.  (`effDuration` is the
already-clamped duration.) -/
def insertNew (s : CacheState) (url : String) (numBytes accessTime effDuration : Int)
    (data : String) (headers : List (String × String)) : CacheState :=
  let toCache : CacheObject :=
    { url := url
      lastAccessTime := accessTime
      expirationTime := accessTime + effDuration
      size := numBytes
      data := data
      headers := headers }
  { s with
    numElems := s.numElems + 1
    numBytes := s.numBytes + numBytes
    map := (url, toCache) :: s.map
    accessList := insortRight (fun o => o.lastAccessTime) toCache s.accessList
    expireList := insortRight (fun o => o.expirationTime) toCache s.expireList }

/-- `Cache.get` (lines 147-168): acquire the lock, run
`checkCacheIntegrity`, and if the url is present pull its object out of
`accessList`, set its `lastAccessTime` to now, re-insert it, and return it;
otherwise return `None` (modelled as the `Option CacheObject` component).
Acquiring the lock while it is already held blocks forever (`none`). -/
def get (now : Int) (s : CacheState) (url : String) :
    Option (CacheState × Option CacheObject) :=
  if s.locked then none
  else
    (checkCacheIntegrity now { s with locked := true }).bind fun s1 =>
      match lookupKey url s1.map with
      | none => some ({ s1 with locked := false }, none)
      | some oldCache =>
          let updated := { oldCache with lastAccessTime := now }
          some ({ s1 with
                  accessList :=
                    insortRight (fun o => o.lastAccessTime) updated (s1.accessList.erase oldCache)
                  expireList := replaceObj oldCache updated s1.expireList
                  map := updateKey url updated s1.map
                  locked := false }, some updated)

/-- `Cache.cache` (lines 116-145): reject durations below `minDuration`,
clamp durations at or above `maxDuration` down to `maxDuration`, reject
sizes above `maxBytes`; then, under the lock, either degrade to a nested
`self.get(url)` when the url is already present (which re-acquires the
already-held non-reentrant lock, i.e. blocks forever: `none`), or insert
the new entry and run `checkCacheIntegrity`.  The Python reassignment
`duration = self.maxDuration` is inlined at the single place the clamped
duration is read (the constructor call on line 136); the map consulted on
line 131 is unchanged by acquiring the lock. -/
def cache (now : Int) (s : CacheState) (url : String) (numBytes accessTime duration : Int)
    (data : String) (headers : List (String × String)) : Option CacheState :=
  if duration < s.minDuration then some s
  else if numBytes > s.maxBytes then some s
  else if s.locked then none
  else if containsKey url s.map then
    (get now { s with locked := true } url).bind fun r => some { r.1 with locked := false }
  else
    (checkCacheIntegrity now
        (insertNew { s with locked := true } url numBytes accessTime
          (if duration ≥ s.maxDuration then s.maxDuration else duration) data headers)).bind
      fun s2 => some { s2 with locked := false }

/-- `Cache.has` (lines 170-175): membership test under the lock; no other
state change. -/
def has (s : CacheState) (url : String) : Option (CacheState × Bool) :=
  if s.locked then none
  else some (s, containsKey url s.map)

end Cache

/-- The arguments of one `Cache.cache` call, together with the `time.time()`
value observed during the call. -/
structure CacheCall where
  url : String
  numBytes : Int
  accessTime : Int
  duration : Int
  now : Int
  data : String
  headers : List (String × String)

/-- Run a sequence of `Cache.cache` calls; `none` as soon as one call fails
to complete. -/
def runCalls (s : CacheState) : List CacheCall → Option CacheState
  | [] => some s
  | c :: cs =>
      (Cache.cache c.now s c.url c.numBytes c.accessTime c.duration c.data c.headers).bind
        fun s1 => runCalls s1 cs

/- ----------------------------------------------------------------------
The request handler (`CachedRequestHandler.do_GET`, src/proxy.py lines
191-261).  External collaborators are modelled as parameters:

  * `urlparse` (Python stdlib `urlparse.urlparse`) is modelled below,
    following its standard URL-splitting semantics for the absolute http
    URLs a proxy receives: the fragment is everything after the first
    `#`; the query is everything after the first `?` before the fragment;
    for an `http://` URL the netloc runs up to the next `/` and the path
    is the remainder (query and fragment excluded from the path).
  * The upstream HTTP fetch (`httplib.HTTPConnection` + `request` +
    `getresponse` + `read`) is a function from (netloc, command, path) to
    an `UpstreamResult`, whose failure constructors are the exceptions
    caught on lines 254-261.
  * `sys.getsizeof` is a function parameter `getsizeof : String → Int`
    (its CPython value on a byte string is the byte length plus a fixed
    object-header overhead, so it differs from `len`).
---------------------------------------------------------------------- -/

/-- Split a character list at the first occurrence of `sep`; the separator
itself is dropped (Python `s.split(sep, 1)`; a missing separator gives an
empty second component, like Python urlparse treats a missing `#`/`?`). -/
def splitOnceChar (sep : Char) : List Char → List Char × List Char
  | [] => ([], [])
  | c :: rest =>
      if c = sep then ([], rest)
      else
        let r := splitOnceChar sep rest
        (c :: r.1, r.2)

/-- Split the part after `http://` into the netloc (up to the first `/`)
and the path (the remainder, keeping its leading `/`). -/
def splitNetloc : List Char → List Char × List Char
  | [] => ([], [])
  | c :: rest =>
      if c = '/' then ([], '/' :: rest)
      else
        let r := splitNetloc rest
        (c :: r.1, r.2)

/-- The components of `urlparse.urlparse` used by the handler. -/
structure ParseResult where
  netloc : String
  path : String
  query : String
  fragment : String
deriving DecidableEq, Repr

/-- Model of Python stdlib `urlparse.urlparse` (an external collaborator)
on the URLs the proxy receives: fragment split first at `#`, query split at
`?`, and for absolute `http://` URLs the netloc runs up to the following
`/` with the rest as path.  A non-`http://` input is treated as a bare
path, which the handler never produces in practice. -/
def urlparseModel (url : String) : ParseResult :=
  let fr := splitOnceChar '#' url.data
  let qr := splitOnceChar '?' fr.1
  match qr.1 with
  | 'h' :: 't' :: 't' :: 'p' :: ':' :: '/' :: '/' :: rest =>
      let nr := splitNetloc rest
      { netloc := ⟨nr.1⟩, path := ⟨nr.2⟩, query := ⟨qr.2⟩, fragment := ⟨fr.2⟩ }
  | _ => { netloc := "", path := ⟨qr.1⟩, query := ⟨qr.2⟩, fragment := ⟨fr.2⟩ }

/-- The cache key the handler computes on lines 197 and 233:
`parsedRequest.netloc + parsedRequest.path`. -/
def cacheKey (requestPath : String) : String :=
  (urlparseModel requestPath).netloc ++ (urlparseModel requestPath).path

/-- Result of one upstream fetch attempt: a response, or one of the
exceptions caught on lines 254-261. -/
inductive UpstreamResult where
  | ok (status : Int) (headers : List (String × String)) (body : String)
  | notConnected
  | invalidURL
  | badStatusLine
  | otherError
deriving DecidableEq, Repr

/-- What the handler writes to the client: the `send_response` status (and
optional message), the `send_header` calls in order, and the body written
to `wfile` (there is none when `end_headers` is never reached). -/
structure ClientResponse where
  status : Int
  statusMessage : Option String
  headers : List (String × String)
  body : Option String
deriving DecidableEq, Repr

/-- Outcome of one `do_GET`: the client-visible response, the cache state
afterwards, and how many upstream connections were opened. -/
structure GetResult where
  response : ClientResponse
  cacheState : CacheState
  upstreamConnections : Nat
deriving DecidableEq, Repr

/-- The `cacheControl` accumulation of lines 218-221: starts `""` and is
overwritten by the value of each header literally named `Cache-control`. -/
def lastCacheControl (headers : List (String × String)) : String :=
  headers.foldl (fun acc h => if h.1 = "Cache-control" then h.2 else acc) ""

/-- `CachedRequestHandler.do_GET` (lines 191-261).  On a hit, reply
`send_response(200)` with the stored headers and body and open no upstream
connection.  On a miss, open one upstream connection; relay 2xx responses
and cache them (size `sys.getsizeof(data)`, duration `cache.maxDuration`)
unless a `Cache-control` header was seen; relay 3xx responses uncached;
answer 400/500 for everything else and for fetch failures. -/
def do_GET (upstream : String → String → String → UpstreamResult)
    (getsizeof : String → Int) (now : Int) (s : CacheState)
    (requestPath : String) (command : String) : Option GetResult :=
  let parsed := urlparseModel requestPath
  (Cache.get now s (cacheKey requestPath)).bind fun res =>
    match res.2 with
    | some d =>
        some { response := { status := 200, statusMessage := none,
                             headers := d.headers, body := some d.data }
               cacheState := res.1
               upstreamConnections := 0 }
    | none =>
        match upstream parsed.netloc command parsed.path with
        | .ok status headers body =>
            if 200 ≤ status ∧ status < 300 then
              if lastCacheControl headers = "" then
                (Cache.cache now res.1 (cacheKey requestPath) (getsizeof body) now
                    res.1.maxDuration body headers).map fun s2 =>
                  { response := { status := status, statusMessage := none,
                                  headers := headers, body := some body }
                    cacheState := s2
                    upstreamConnections := 1 }
              else
                some { response := { status := status, statusMessage := none,
                                     headers := headers, body := some body }
                       cacheState := res.1
                       upstreamConnections := 1 }
            else if 300 ≤ status ∧ status < 400 then
              some { response := { status := status, statusMessage := none,
                                   headers := headers, body := some body }
                     cacheState := res.1
                     upstreamConnections := 1 }
            else
              some { response := { status := 400, statusMessage := none,
                                   headers := [], body := none }
                     cacheState := res.1
                     upstreamConnections := 1 }
        | .notConnected =>
            some { response := { status := 400,
                                 statusMessage := some "Proxy cannot establsh connection to server",
                                 headers := [], body := none }
                   cacheState := res.1
                   upstreamConnections := 1 }
        | .invalidURL =>
            some { response := { status := 400, statusMessage := some "Invalid URL",
                                 headers := [], body := none }
                   cacheState := res.1
                   upstreamConnections := 1 }
        | .badStatusLine =>
            some { response := { status := 500,
                                 statusMessage := some "Destination server messed up",
                                 headers := [], body := none }
                   cacheState := res.1
                   upstreamConnections := 1 }
        | .otherError =>
            some { response := { status := 500,
                                 statusMessage := some "Something went wrong that we did not know about",
                                 headers := [], body := none }
                   cacheState := res.1
                   upstreamConnections := 1 }

/- ----------------------------------------------------------------------
The structural consistency invariant of the cache and a lemma kit about
the modelled container operations.
---------------------------------------------------------------------- -/

/-- Structural consistency of a cache state: the map and the two orderings
hold the same entries (as multisets), map keys agree with the stored urls
and are duplicate-free, the counters match, and the two lists are sorted
by their respective keys. -/
structure WF (s : CacheState) : Prop where
  perm_ae : s.accessList.Perm s.expireList
  map_perm : (s.map.map Prod.snd).Perm s.accessList
  map_keys : ∀ p ∈ s.map, p.2.url = p.1
  keys_nodup : (s.map.map Prod.fst).Nodup
  elems : s.numElems = (s.accessList.length : Int)
  bytes : s.numBytes = (s.accessList.map CacheObject.size).sum
  sorted_a : s.accessList.Pairwise (fun a b => a.lastAccessTime ≤ b.lastAccessTime)
  sorted_e : s.expireList.Pairwise (fun a b => a.expirationTime ≤ b.expirationTime)

/-- All entry sizes in a cache state are nonnegative (byte counts). -/
def SizesNonneg (s : CacheState) : Prop := ∀ x ∈ s.accessList, 0 ≤ x.size

/-- The inductive invariant for sequences of `Cache.cache` calls: structural
consistency, a free lock, nonnegative entry sizes, nonnegative budgets, and
both budgets respected. -/
def CacheInv (s : CacheState) : Prop :=
  WF s ∧ s.locked = false ∧ SizesNonneg s ∧ 0 ≤ s.maxElems ∧ 0 ≤ s.maxBytes ∧
    s.numElems ≤ s.maxElems ∧ s.numBytes ≤ s.maxBytes

/-- The two eviction passes of `checkCacheIntegrity` run in the opposite
order (expiry first, then capacity).  Stated from the spec sentence that
the order between the two passes does not affect the final fixed point; to
be compared with `Cache.checkCacheIntegrity`, which runs capacity first. -/
def checkReversed (now : Int) (s : CacheState) : Option CacheState :=
  (Cache.evictExpiry now s).bind Cache.evictCapacity

/-- The four configuration fields of `t` agree with those of `s`. -/
def SameConfig (s t : CacheState) : Prop :=
  t.maxDuration = s.maxDuration ∧ t.minDuration = s.minDuration ∧
    t.maxBytes = s.maxBytes ∧ t.maxElems = s.maxElems

theorem sameConfig_refl (s : CacheState) : SameConfig s s :=
  ⟨rfl, rfl, rfl, rfl⟩

theorem sameConfig_trans {s t u : CacheState} (h1 : SameConfig s t) (h2 : SameConfig t u) :
    SameConfig s u := by
  obtain ⟨a1, b1, c1, d1⟩ := h1
  obtain ⟨a2, b2, c2, d2⟩ := h2
  exact ⟨a2.trans a1, b2.trans b1, c2.trans c1, d2.trans d1⟩

/-- The invariant only constrains the data fields, never the lock flag. -/
theorem WF.setLocked {s : CacheState} (h : WF s) (b : Bool) : WF { s with locked := b } := by
  cases h
  exact ⟨by assumption, by assumption, by assumption, by assumption, by assumption,
    by assumption, by assumption, by assumption⟩

theorem lookupKey_some_mem {u : String} {m : List (String × CacheObject)} {o : CacheObject}
    (h : lookupKey u m = some o) : (u, o) ∈ m := by
  induction m with
  | nil => simp [lookupKey] at h
  | cons p rest ih =>
      obtain ⟨k, v⟩ := p
      by_cases hk : k = u
      · subst hk
        simp [lookupKey] at h
        subst h
        exact List.mem_cons_self _ _
      · simp [lookupKey, hk] at h
        exact List.mem_cons_of_mem _ (ih h)

theorem lookupKey_none_iff {u : String} {m : List (String × CacheObject)} :
    lookupKey u m = none ↔ u ∉ m.map Prod.fst := by
  induction m with
  | nil => simp [lookupKey]
  | cons p rest ih =>
      obtain ⟨k, v⟩ := p
      by_cases hk : k = u
      · subst hk
        simp [lookupKey]
      · simp only [lookupKey, if_neg hk, List.map_cons, List.mem_cons, ih]
        constructor
        · rintro h (h1 | h2)
          · exact hk h1.symm
          · exact h h2
        · intro h h2
          exact h (Or.inr h2)

theorem lookupKey_isSome_of_mem {u : String} {m : List (String × CacheObject)}
    (h : u ∈ m.map Prod.fst) : ∃ o, lookupKey u m = some o := by
  cases ho : lookupKey u m with
  | none => exact absurd h (lookupKey_none_iff.mp ho)
  | some o => exact ⟨o, rfl⟩

theorem eraseKey_mem {u : String} {m : List (String × CacheObject)} {p : String × CacheObject}
    (h : p ∈ eraseKey u m) : p ∈ m := by
  induction m with
  | nil => simp [eraseKey] at h
  | cons q rest ih =>
      obtain ⟨k, v⟩ := q
      by_cases hk : k = u
      · simp [eraseKey, hk] at h
        exact List.mem_cons_of_mem _ h
      · simp [eraseKey, hk] at h
        rcases h with h | h
        · exact h ▸ List.mem_cons_self _ _
        · exact List.mem_cons_of_mem _ (ih h)

theorem eraseKey_sublist (u : String) (m : List (String × CacheObject)) :
    (eraseKey u m).Sublist m := by
  induction m with
  | nil => simp [eraseKey]
  | cons q rest ih =>
      obtain ⟨k, v⟩ := q
      by_cases hk : k = u
      · simp only [eraseKey, if_pos hk]
        exact List.sublist_cons_self _ _
      · simp only [eraseKey, if_neg hk]
        exact ih.cons₂ _

/-- With duplicate-free keys, erasing key `k` (the key of the pair
`(k, a) ∈ m`) removes exactly the object `a` from the range of the map. -/
theorem eraseKey_snd_perm {k : String} {a : CacheObject} {m : List (String × CacheObject)}
    (hnd : (m.map Prod.fst).Nodup) (hkeys : ∀ p ∈ m, p.2.url = p.1) (hmem : (k, a) ∈ m) :
    ((eraseKey k m).map Prod.snd).Perm ((m.map Prod.snd).erase a) := by
  induction m with
  | nil => simp at hmem
  | cons q rest ih =>
      obtain ⟨k1, b⟩ := q
      simp only [List.map_cons, List.nodup_cons] at hnd
      by_cases hk : k1 = k
      · subst hk
        have hba : b = a := by
          rcases List.mem_cons.mp hmem with h | h
          · exact (Prod.mk.injEq _ _ _ _ ▸ h).2.symm ▸ rfl
          · exact absurd (List.mem_map.mpr ⟨(k1, a), h, rfl⟩) hnd.1
        subst hba
        simp [eraseKey, List.erase_cons_head]
      · have hmem2 : (k, a) ∈ rest := by
          rcases List.mem_cons.mp hmem with h | h
          · exact absurd (congrArg Prod.fst h).symm hk
          · exact h
        have hba : b ≠ a := by
          intro hba
          subst hba
          have h1 : b.url = k1 := hkeys (k1, b) (List.mem_cons_self _ _)
          have h2 : b.url = k := hkeys (k, b) (List.mem_cons_of_mem _ hmem2)
          exact hk (h1 ▸ h2 ▸ rfl)
        have : (eraseKey k ((k1, b) :: rest)) = (k1, b) :: eraseKey k rest := by
          simp [eraseKey, hk]
        rw [this]
        simp only [List.map_cons]
        rw [List.erase_cons_tail]
        · exact (ih hnd.2 (fun p hp => hkeys p (List.mem_cons_of_mem _ hp)) hmem2).cons b
        · simp [hba]


theorem lookupKey_cons_self (k : String) (v : CacheObject) (rest : List (String × CacheObject)) :
    lookupKey k ((k, v) :: rest) = some v := by
  simp [lookupKey]

theorem lookupKey_cons_ne {k1 k : String} (v : CacheObject) (rest : List (String × CacheObject))
    (h : k1 ≠ k) : lookupKey k ((k1, v) :: rest) = lookupKey k rest := by
  simp [lookupKey, h]

theorem eraseKey_cons_self (k : String) (v : CacheObject) (rest : List (String × CacheObject)) :
    eraseKey k ((k, v) :: rest) = rest := by
  simp [eraseKey]

theorem eraseKey_cons_ne {k1 k : String} (v : CacheObject) (rest : List (String × CacheObject))
    (h : k1 ≠ k) : eraseKey k ((k1, v) :: rest) = (k1, v) :: eraseKey k rest := by
  simp [eraseKey, h]

theorem updateKey_cons_self (k : String) (v w : CacheObject) (rest : List (String × CacheObject)) :
    updateKey k v ((k, w) :: rest) = (k, v) :: rest := by
  simp [updateKey]

theorem updateKey_cons_ne {k1 k : String} (v w : CacheObject) (rest : List (String × CacheObject))
    (h : k1 ≠ k) : updateKey k v ((k1, w) :: rest) = (k1, w) :: updateKey k v rest := by
  simp [updateKey, h]

/-- With duplicate-free keys, a successful lookup in an erased map was
already successful (with the same object) before erasing. -/
theorem lookupKey_eraseKey {u k : String} {m : List (String × CacheObject)} {o : CacheObject}
    (hnd : (m.map Prod.fst).Nodup) (h : lookupKey u (eraseKey k m) = some o) :
    lookupKey u m = some o := by
  induction m with
  | nil => simp [eraseKey, lookupKey] at h
  | cons q rest ih =>
      obtain ⟨k1, v⟩ := q
      simp only [List.map_cons, List.nodup_cons] at hnd
      by_cases hk : k1 = k
      · subst hk
        rw [eraseKey_cons_self] at h
        by_cases hu : k1 = u
        · subst hu
          have hm : (k1, o) ∈ rest := lookupKey_some_mem h
          exact absurd (List.mem_map.mpr ⟨(k1, o), hm, rfl⟩) hnd.1
        · rw [lookupKey_cons_ne v rest hu]
          exact h
      · rw [eraseKey_cons_ne v rest hk] at h
        by_cases hu : k1 = u
        · subst hu
          rw [lookupKey_cons_self] at h ⊢
          exact h
        · rw [lookupKey_cons_ne v _ hu] at h ⊢
          exact ih hnd.2 h

theorem updateKey_fst (k : String) (v : CacheObject) (m : List (String × CacheObject)) :
    (updateKey k v m).map Prod.fst = m.map Prod.fst := by
  induction m with
  | nil => rfl
  | cons q rest ih =>
      obtain ⟨k1, w⟩ := q
      by_cases hk : k1 = k
      · subst hk
        rw [updateKey_cons_self]
        simp
      · rw [updateKey_cons_ne v w rest hk]
        simp [ih]

theorem updateKey_mem {k : String} {v : CacheObject} {m : List (String × CacheObject)}
    {p : String × CacheObject} (h : p ∈ updateKey k v m) : p ∈ m ∨ p = (k, v) := by
  induction m with
  | nil => simp [updateKey] at h
  | cons q rest ih =>
      obtain ⟨k1, w⟩ := q
      by_cases hk : k1 = k
      · subst hk
        rw [updateKey_cons_self] at h
        rcases List.mem_cons.mp h with h1 | h1
        · exact Or.inr h1
        · exact Or.inl (List.mem_cons_of_mem _ h1)
      · rw [updateKey_cons_ne v w rest hk] at h
        rcases List.mem_cons.mp h with h1 | h1
        · exact Or.inl (h1 ▸ List.mem_cons_self _ _)
        · rcases ih h1 with h2 | h2
          · exact Or.inl (List.mem_cons_of_mem _ h2)
          · exact Or.inr h2

/-- With duplicate-free keys, updating the value stored under `k` (where
`(k, a) ∈ m`) replaces exactly `a` by `v` in the range of the map. -/
theorem updateKey_snd_perm {k : String} {a v : CacheObject} {m : List (String × CacheObject)}
    (hnd : (m.map Prod.fst).Nodup) (hkeys : ∀ p ∈ m, p.2.url = p.1) (hmem : (k, a) ∈ m) :
    ((updateKey k v m).map Prod.snd).Perm (v :: (m.map Prod.snd).erase a) := by
  induction m with
  | nil => simp at hmem
  | cons q rest ih =>
      obtain ⟨k1, b⟩ := q
      simp only [List.map_cons, List.nodup_cons] at hnd
      by_cases hk : k1 = k
      · subst hk
        have hba : b = a := by
          rcases List.mem_cons.mp hmem with h | h
          · exact ((Prod.mk.injEq _ _ _ _).mp h.symm).2
          · exact absurd (List.mem_map.mpr ⟨(k1, a), h, rfl⟩) hnd.1
        subst hba
        rw [updateKey_cons_self]
        simp [List.erase_cons_head]
      · have hmem2 : (k, a) ∈ rest := by
          rcases List.mem_cons.mp hmem with h | h
          · exact absurd (congrArg Prod.fst h).symm hk
          · exact h
        have hba : b ≠ a := by
          intro hba
          subst hba
          have h1 : b.url = k1 := hkeys (k1, b) (List.mem_cons_self _ _)
          have h2 : b.url = k := hkeys (k, b) (List.mem_cons_of_mem _ hmem2)
          exact hk (h1 ▸ h2 ▸ rfl)
        rw [updateKey_cons_ne v b rest hk]
        simp only [List.map_cons]
        rw [List.erase_cons_tail]
        · exact ((ih hnd.2 (fun p hp => hkeys p (List.mem_cons_of_mem _ hp)) hmem2).cons b).trans
            (List.Perm.swap _ _ _)
        · simp [hba]

theorem insortRight_perm (key : CacheObject → Int) (a : CacheObject) (l : List CacheObject) :
    (insortRight key a l).Perm (a :: l) := by
  induction l with
  | nil => simp [insortRight]
  | cons b rest ih =>
      by_cases hb : key b ≤ key a
      · simp only [insortRight, if_pos hb]
        exact (ih.cons b).trans (List.Perm.swap _ _ _)
      · simp only [insortRight, if_neg hb]
        exact List.Perm.refl _

theorem insortRight_pairwise {key : CacheObject → Int} {a : CacheObject} {l : List CacheObject}
    (h : l.Pairwise (fun x y => key x ≤ key y)) :
    (insortRight key a l).Pairwise (fun x y => key x ≤ key y) := by
  induction l with
  | nil => simp [insortRight]
  | cons b rest ih =>
      rcases List.pairwise_cons.mp h with ⟨hb, hrest⟩
      by_cases hba : key b ≤ key a
      · simp only [insortRight, if_pos hba]
        refine List.pairwise_cons.mpr ⟨?_, ih hrest⟩
        intro x hx
        rcases List.mem_cons.mp ((insortRight_perm key a rest).mem_iff.mp hx) with h1 | h1
        · exact h1 ▸ hba
        · exact hb x h1
      · simp only [insortRight, if_neg hba]
        refine List.pairwise_cons.mpr ⟨?_, h⟩
        intro x hx
        rcases List.mem_cons.mp hx with h1 | h1
        · exact h1 ▸ le_of_not_le hba
        · exact le_trans (le_of_not_le hba) (hb x h1)

theorem replaceObj_cons_self (old new : CacheObject) (rest : List CacheObject) :
    replaceObj old new (old :: rest) = new :: rest := by
  simp [replaceObj]

theorem replaceObj_cons_ne {b old : CacheObject} (new : CacheObject) (rest : List CacheObject)
    (h : b ≠ old) : replaceObj old new (b :: rest) = b :: replaceObj old new rest := by
  simp [replaceObj, h]

theorem replaceObj_mem {old new x : CacheObject} {l : List CacheObject}
    (h : x ∈ replaceObj old new l) : x ∈ l ∨ (x = new ∧ old ∈ l) := by
  induction l with
  | nil => simp [replaceObj] at h
  | cons b rest ih =>
      by_cases hb : b = old
      · subst hb
        rw [replaceObj_cons_self] at h
        rcases List.mem_cons.mp h with h1 | h1
        · exact Or.inr ⟨h1, List.mem_cons_self _ _⟩
        · exact Or.inl (List.mem_cons_of_mem _ h1)
      · rw [replaceObj_cons_ne new rest hb] at h
        rcases List.mem_cons.mp h with h1 | h1
        · exact Or.inl (h1 ▸ List.mem_cons_self _ _)
        · rcases ih h1 with h2 | ⟨h2, h3⟩
          · exact Or.inl (List.mem_cons_of_mem _ h2)
          · exact Or.inr ⟨h2, List.mem_cons_of_mem _ h3⟩

theorem replaceObj_perm {old : CacheObject} (new : CacheObject) {l : List CacheObject}
    (h : old ∈ l) : (replaceObj old new l).Perm (new :: l.erase old) := by
  induction l with
  | nil => simp at h
  | cons b rest ih =>
      by_cases hb : b = old
      · subst hb
        rw [replaceObj_cons_self, List.erase_cons_head]
      · have hmem : old ∈ rest := by
          rcases List.mem_cons.mp h with h1 | h1
          · exact absurd h1.symm hb
          · exact h1
        rw [replaceObj_cons_ne new rest hb, List.erase_cons_tail]
        · exact ((ih hmem).cons b).trans (List.Perm.swap _ _ _)
        · simp [hb]

theorem replaceObj_pairwise {R : CacheObject → CacheObject → Prop} {old new : CacheObject}
    {l : List CacheObject} (h : l.Pairwise R)
    (h1 : ∀ x, R x old → R x new) (h2 : ∀ x, R old x → R new x) :
    (replaceObj old new l).Pairwise R := by
  induction l with
  | nil => simp [replaceObj]
  | cons b rest ih =>
      rcases List.pairwise_cons.mp h with ⟨hb, hrest⟩
      by_cases hbo : b = old
      · subst hbo
        rw [replaceObj_cons_self]
        exact List.pairwise_cons.mpr ⟨fun x hx => h2 x (hb x hx), hrest⟩
      · rw [replaceObj_cons_ne new rest hbo]
        refine List.pairwise_cons.mpr ⟨?_, ih hrest⟩
        intro x hx
        rcases replaceObj_mem hx with h3 | ⟨h3, h4⟩
        · exact hb x h3
        · exact h3 ▸ h1 b (hb old h4)

/- ----------------------------------------------------------------------
Consequences of the invariant and preservation through one removal step.
---------------------------------------------------------------------- -/

/-- Under the invariant, an object of the access ordering is a map value
stored under its own url. -/
theorem WF.mem_map_of_mem_access {s : CacheState} (h : WF s) {a : CacheObject}
    (ha : a ∈ s.accessList) : (a.url, a) ∈ s.map := by
  have hmem : a ∈ s.map.map Prod.snd := h.map_perm.mem_iff.mpr ha
  obtain ⟨p, hp, hpa⟩ := List.mem_map.mp hmem
  obtain ⟨k, b⟩ := p
  have hb : b = a := hpa
  subst hb
  have hk : b.url = k := h.map_keys (k, b) hp
  rw [hk]
  exact hp

/-- Under the invariant, a successful map lookup returns an object that is
in the access ordering and whose url is the looked-up key. -/
theorem WF.lookup_mem {s : CacheState} (h : WF s) {u : String} {o : CacheObject}
    (hl : lookupKey u s.map = some o) : o ∈ s.accessList ∧ o.url = u := by
  have hmem : (u, o) ∈ s.map := lookupKey_some_mem hl
  have hurl : o.url = u := h.map_keys (u, o) hmem
  have : o ∈ s.map.map Prod.snd := List.mem_map.mpr ⟨(u, o), hmem, rfl⟩
  exact ⟨h.map_perm.mem_iff.mp this, hurl⟩

/-- Under the invariant, a failed map lookup means no entry in the access
ordering carries that url. -/
theorem WF.lookup_none {s : CacheState} (h : WF s) {u : String}
    (hl : lookupKey u s.map = none) : ∀ x ∈ s.accessList, x.url ≠ u := by
  intro x hx hxu
  have hmem : (x.url, x) ∈ s.map := h.mem_map_of_mem_access hx
  have : u ∈ s.map.map Prod.fst := List.mem_map.mpr ⟨(x.url, x), hmem, hxu⟩
  exact lookupKey_none_iff.mp hl this

/-- Popping the head of the access ordering and removing it from the other
two structures preserves the invariant (one iteration of the capacity
loop). -/
theorem WF_popAccess {s : CacheState} {a : CacheObject} {rest : List CacheObject}
    (h : WF s) (hacc : s.accessList = a :: rest) :
    WF { s with
      accessList := rest
      expireList := s.expireList.erase a
      map := eraseKey a.url s.map
      numBytes := s.numBytes - a.size
      numElems := s.numElems - 1 } := by
  have hmema : a ∈ s.accessList := hacc ▸ List.mem_cons_self a rest
  have hmemm : (a.url, a) ∈ s.map := h.mem_map_of_mem_access hmema
  have hpae : (a :: rest).Perm s.expireList := hacc ▸ h.perm_ae
  refine ⟨?_, ?_, ?_, ?_, ?_, ?_, ?_, ?_⟩
  · have := hpae.erase a
    rw [List.erase_cons_head] at this
    exact this
  · refine (eraseKey_snd_perm h.keys_nodup h.map_keys hmemm).trans ?_
    have := (h.map_perm.erase a)
    rw [hacc, List.erase_cons_head] at this
    exact this
  · exact fun p hp => h.map_keys p (eraseKey_mem hp)
  · exact h.keys_nodup.sublist ((eraseKey_sublist a.url s.map).map Prod.fst)
  · have he := h.elems
    rw [hacc] at he
    simp only [List.length_cons] at he
    simp only
    push_cast at he ⊢
    omega
  · have hb := h.bytes
    rw [hacc] at hb
    simp only [List.map_cons, List.sum_cons] at hb
    simp only
    omega
  · have := h.sorted_a
    rw [hacc] at this
    exact (List.pairwise_cons.mp this).2
  · exact h.sorted_e.sublist (List.erase_sublist a s.expireList)

/-- Popping the head of the expiration ordering and removing it from the
other two structures preserves the invariant (one iteration of the expiry
loop). -/
theorem WF_popExpire {s : CacheState} {a : CacheObject} {rest : List CacheObject}
    (h : WF s) (hexp : s.expireList = a :: rest) :
    WF { s with
      expireList := rest
      accessList := s.accessList.erase a
      map := eraseKey a.url s.map
      numBytes := s.numBytes - a.size
      numElems := s.numElems - 1 } := by
  have hmema : a ∈ s.accessList := by
    refine h.perm_ae.mem_iff.mpr ?_
    rw [hexp]
    exact List.mem_cons_self a rest
  have hmemm : (a.url, a) ∈ s.map := h.mem_map_of_mem_access hmema
  refine ⟨?_, ?_, ?_, ?_, ?_, ?_, ?_, ?_⟩
  · have := h.perm_ae.erase a
    rw [hexp, List.erase_cons_head] at this
    exact this
  · exact (eraseKey_snd_perm h.keys_nodup h.map_keys hmemm).trans (h.map_perm.erase a)
  · exact fun p hp => h.map_keys p (eraseKey_mem hp)
  · exact h.keys_nodup.sublist ((eraseKey_sublist a.url s.map).map Prod.fst)
  · have he := h.elems
    have hlen : (s.accessList.erase a).length = s.accessList.length - 1 :=
      List.length_erase_of_mem hmema
    have hpos : 0 < s.accessList.length := List.length_pos.mpr (List.ne_nil_of_mem hmema)
    simp only
    push_cast [hlen]
    omega
  · have hb := h.bytes
    have hperm : s.accessList.Perm (a :: s.accessList.erase a) := List.perm_cons_erase hmema
    have hsum : (s.accessList.map CacheObject.size).sum =
        a.size + ((s.accessList.erase a).map CacheObject.size).sum := by
      have := (hperm.map CacheObject.size).sum_eq
      simpa using this
    simp only
    omega
  · exact h.sorted_a.sublist (List.erase_sublist a s.accessList)
  · have := h.sorted_e
    rw [hexp] at this
    exact (List.pairwise_cons.mp this).2

/- ----------------------------------------------------------------------
Unfolding equations and specifications for the two eviction loops.
---------------------------------------------------------------------- -/

theorem evictCapacityFuel_succ_nil {fuel : Nat} {s : CacheState}
    (hguard : s.numElems > s.maxElems ∨ s.numBytes > s.maxBytes) (hacc : s.accessList = []) :
    Cache.evictCapacityFuel (fuel + 1) s = none := by
  unfold Cache.evictCapacityFuel
  rw [if_pos hguard, hacc]

theorem evictCapacityFuel_succ_cons {fuel : Nat} {s : CacheState} {a : CacheObject}
    {rest : List CacheObject}
    (hguard : s.numElems > s.maxElems ∨ s.numBytes > s.maxBytes)
    (hacc : s.accessList = a :: rest) :
    Cache.evictCapacityFuel (fuel + 1) s = Cache.evictCapacityFuel fuel { s with
      accessList := rest
      expireList := s.expireList.erase a
      map := eraseKey a.url s.map
      numBytes := s.numBytes - a.size
      numElems := s.numElems - 1 } := by
  simp only [Cache.evictCapacityFuel]
  rw [if_pos hguard, hacc]

theorem evictCapacityFuel_succ_done {fuel : Nat} {s : CacheState}
    (hguard : ¬(s.numElems > s.maxElems ∨ s.numBytes > s.maxBytes)) :
    Cache.evictCapacityFuel (fuel + 1) s = some s := by
  unfold Cache.evictCapacityFuel
  rw [if_neg hguard]

theorem evictCapacity_nil {s : CacheState}
    (hguard : s.numElems > s.maxElems ∨ s.numBytes > s.maxBytes) (hacc : s.accessList = []) :
    Cache.evictCapacity s = none := by
  unfold Cache.evictCapacity
  exact evictCapacityFuel_succ_nil hguard hacc

theorem evictCapacity_cons {s : CacheState} {a : CacheObject} {rest : List CacheObject}
    (hguard : s.numElems > s.maxElems ∨ s.numBytes > s.maxBytes)
    (hacc : s.accessList = a :: rest) :
    Cache.evictCapacity s = Cache.evictCapacity { s with
      accessList := rest
      expireList := s.expireList.erase a
      map := eraseKey a.url s.map
      numBytes := s.numBytes - a.size
      numElems := s.numElems - 1 } := by
  unfold Cache.evictCapacity
  rw [hacc]
  exact evictCapacityFuel_succ_cons hguard hacc

theorem evictCapacity_done {s : CacheState}
    (hguard : ¬(s.numElems > s.maxElems ∨ s.numBytes > s.maxBytes)) :
    Cache.evictCapacity s = some s := by
  unfold Cache.evictCapacity
  exact evictCapacityFuel_succ_done hguard

theorem evictExpiryFuel_succ_zero {now : Int} {fuel : Nat} {s : CacheState}
    (hguard : ¬s.numElems > 0) : Cache.evictExpiryFuel now (fuel + 1) s = some s := by
  unfold Cache.evictExpiryFuel
  rw [if_neg hguard]

theorem evictExpiryFuel_succ_nil {now : Int} {fuel : Nat} {s : CacheState}
    (hguard : s.numElems > 0) (hexp : s.expireList = []) :
    Cache.evictExpiryFuel now (fuel + 1) s = none := by
  unfold Cache.evictExpiryFuel
  rw [if_pos hguard, hexp]

theorem evictExpiryFuel_succ_expired {now : Int} {fuel : Nat} {s : CacheState}
    {a : CacheObject} {rest : List CacheObject} (hguard : s.numElems > 0)
    (hexp : s.expireList = a :: rest) (hlt : a.expirationTime < now) :
    Cache.evictExpiryFuel now (fuel + 1) s = Cache.evictExpiryFuel now fuel { s with
      expireList := rest
      accessList := s.accessList.erase a
      map := eraseKey a.url s.map
      numBytes := s.numBytes - a.size
      numElems := s.numElems - 1 } := by
  simp only [Cache.evictExpiryFuel]
  rw [if_pos hguard, hexp]
  exact if_pos hlt

theorem evictExpiryFuel_succ_live {now : Int} {fuel : Nat} {s : CacheState}
    {a : CacheObject} {rest : List CacheObject} (hguard : s.numElems > 0)
    (hexp : s.expireList = a :: rest) (hge : ¬a.expirationTime < now) :
    Cache.evictExpiryFuel now (fuel + 1) s = some s := by
  unfold Cache.evictExpiryFuel
  rw [if_pos hguard, hexp]
  exact if_neg hge

theorem evictExpiry_zero {now : Int} {s : CacheState} (hguard : ¬s.numElems > 0) :
    Cache.evictExpiry now s = some s := by
  unfold Cache.evictExpiry
  exact evictExpiryFuel_succ_zero hguard

theorem evictExpiry_nil {now : Int} {s : CacheState} (hguard : s.numElems > 0)
    (hexp : s.expireList = []) : Cache.evictExpiry now s = none := by
  unfold Cache.evictExpiry
  exact evictExpiryFuel_succ_nil hguard hexp

theorem evictExpiry_cons_expired {now : Int} {s : CacheState} {a : CacheObject}
    {rest : List CacheObject} (hguard : s.numElems > 0) (hexp : s.expireList = a :: rest)
    (hlt : a.expirationTime < now) :
    Cache.evictExpiry now s = Cache.evictExpiry now { s with
      expireList := rest
      accessList := s.accessList.erase a
      map := eraseKey a.url s.map
      numBytes := s.numBytes - a.size
      numElems := s.numElems - 1 } := by
  unfold Cache.evictExpiry
  rw [hexp]
  exact evictExpiryFuel_succ_expired hguard hexp hlt

theorem evictExpiry_cons_live {now : Int} {s : CacheState} {a : CacheObject}
    {rest : List CacheObject} (hguard : s.numElems > 0) (hexp : s.expireList = a :: rest)
    (hge : ¬a.expirationTime < now) : Cache.evictExpiry now s = some s := by
  unfold Cache.evictExpiry
  exact evictExpiryFuel_succ_live hguard hexp hge

/-- When the bounded capacity loop completes, the invariant is preserved,
both budgets hold, the surviving entries are a sublist of the original
access ordering, the configuration and lock are untouched, and every
surviving map binding was already present. -/
theorem evictCapacityFuel_spec (fuel : Nat) :
    ∀ s s', Cache.evictCapacityFuel fuel s = some s' → WF s →
      WF s' ∧ s'.numElems ≤ s'.maxElems ∧ s'.numBytes ≤ s'.maxBytes ∧
        s'.accessList.Sublist s.accessList ∧ SameConfig s s' ∧ s'.locked = s.locked ∧
        (∀ u o, lookupKey u s'.map = some o → lookupKey u s.map = some o) := by
  induction fuel with
  | zero =>
      intro s s' hev
      exact absurd hev (Option.noConfusion)
  | succ fuel ih =>
      intro s s' hev h
      by_cases hguard : s.numElems > s.maxElems ∨ s.numBytes > s.maxBytes
      · cases hacc : s.accessList with
        | nil =>
            rw [evictCapacityFuel_succ_nil hguard hacc] at hev
            exact absurd hev (Option.noConfusion)
        | cons a rest =>
            rw [evictCapacityFuel_succ_cons hguard hacc] at hev
            have h2 := WF_popAccess h hacc
            obtain ⟨hwf, he, hb, hsub, hcfg, hlkd, hlk⟩ := ih _ s' hev h2
            refine ⟨hwf, he, hb, ?_, sameConfig_trans ⟨rfl, rfl, rfl, rfl⟩ hcfg, hlkd, ?_⟩
            · have hsub2 : s'.accessList.Sublist rest := hsub
              exact hsub2.trans (List.sublist_cons_self a rest)
            · intro u o hlo
              exact lookupKey_eraseKey h.keys_nodup (hlk u o hlo)
      · rw [evictCapacityFuel_succ_done hguard] at hev
        simp only [Option.some.injEq] at hev
        subst hev
        push_neg at hguard
        exact ⟨h, hguard.1, hguard.2, List.Sublist.refl _, sameConfig_refl s, rfl,
          fun u o ho => ho⟩

/-- Same statement for the wrapper. -/
theorem evictCapacity_spec (s : CacheState) :
    ∀ s', Cache.evictCapacity s = some s' → WF s →
      WF s' ∧ s'.numElems ≤ s'.maxElems ∧ s'.numBytes ≤ s'.maxBytes ∧
        s'.accessList.Sublist s.accessList ∧ SameConfig s s' ∧
        (∀ u o, lookupKey u s'.map = some o → lookupKey u s.map = some o) := by
  intro s' hev h
  obtain ⟨h1, h2, h3, h4, h5, h6, h7⟩ := evictCapacityFuel_spec _ s s' hev h
  exact ⟨h1, h2, h3, h4, h5, h7⟩

/-- With enough fuel, the invariant and nonnegative budgets rule out the
empty-pop error of the capacity loop. -/
theorem evictCapacityFuel_total (fuel : Nat) :
    ∀ s, WF s → 0 ≤ s.maxElems → 0 ≤ s.maxBytes → s.accessList.length < fuel →
      ∃ s', Cache.evictCapacityFuel fuel s = some s' := by
  induction fuel with
  | zero =>
      intro s _ _ _ hlt
      exact absurd hlt (Nat.not_lt_zero _)
  | succ fuel ih =>
      intro s h hme hmb hlt
      by_cases hguard : s.numElems > s.maxElems ∨ s.numBytes > s.maxBytes
      · cases hacc : s.accessList with
        | nil =>
            have he := h.elems
            have hb := h.bytes
            rw [hacc] at he hb
            simp at he hb
            rcases hguard with hg | hg <;> omega
        | cons a rest =>
            have h2 := WF_popAccess h hacc
            have hlen : rest.length < fuel := by
              rw [hacc] at hlt
              simp only [List.length_cons] at hlt
              omega
            obtain ⟨s', hs'⟩ := ih _ h2 hme hmb hlen
            refine ⟨s', ?_⟩
            rw [evictCapacityFuel_succ_cons hguard hacc]
            exact hs'
      · exact ⟨s, evictCapacityFuel_succ_done hguard⟩

/-- Under the invariant with nonnegative budgets, the capacity loop never
hits the empty-pop error. -/
theorem evictCapacity_total (s : CacheState) :
    WF s → 0 ≤ s.maxElems → 0 ≤ s.maxBytes → ∃ s', Cache.evictCapacity s = some s' := by
  intro h hme hmb
  exact evictCapacityFuel_total _ s h hme hmb (Nat.lt_succ_self _)

/-- When the bounded expiry loop completes, the invariant is preserved, no
remaining entry is expired, the surviving entries are a sublist of the
original access ordering, the configuration and lock are untouched, and
every surviving map binding was already present. -/
theorem evictExpiryFuel_spec (now : Int) (fuel : Nat) :
    ∀ s s', Cache.evictExpiryFuel now fuel s = some s' → WF s →
      WF s' ∧ (∀ x ∈ s'.expireList, now ≤ x.expirationTime) ∧
        s'.accessList.Sublist s.accessList ∧ SameConfig s s' ∧ s'.locked = s.locked ∧
        (∀ u o, lookupKey u s'.map = some o → lookupKey u s.map = some o) := by
  induction fuel with
  | zero =>
      intro s s' hev
      exact absurd hev (Option.noConfusion)
  | succ fuel ih =>
      intro s s' hev h
      by_cases hguard : s.numElems > 0
      · cases hexp : s.expireList with
        | nil =>
            rw [evictExpiryFuel_succ_nil hguard hexp] at hev
            exact absurd hev (Option.noConfusion)
        | cons a rest =>
            by_cases hlt : a.expirationTime < now
            · rw [evictExpiryFuel_succ_expired hguard hexp hlt] at hev
              have h2 := WF_popExpire h hexp
              obtain ⟨hwf, hne, hsub, hcfg, hlkd, hlk⟩ := ih _ s' hev h2
              refine ⟨hwf, hne, hsub.trans (List.erase_sublist a s.accessList),
                sameConfig_trans ⟨rfl, rfl, rfl, rfl⟩ hcfg, hlkd, ?_⟩
              intro u o hlo
              exact lookupKey_eraseKey h.keys_nodup (hlk u o hlo)
            · rw [evictExpiryFuel_succ_live hguard hexp hlt] at hev
              simp only [Option.some.injEq] at hev
              subst hev
              refine ⟨h, ?_, List.Sublist.refl _, sameConfig_refl s, rfl, fun u o ho => ho⟩
              intro x hx
              rw [hexp] at hx
              have hs := h.sorted_e
              rw [hexp] at hs
              rcases List.mem_cons.mp hx with h1 | h1
              · rw [h1]
                omega
              · have := (List.pairwise_cons.mp hs).1 x h1
                omega
      · rw [evictExpiryFuel_succ_zero hguard] at hev
        simp only [Option.some.injEq] at hev
        subst hev
        refine ⟨h, ?_, List.Sublist.refl _, sameConfig_refl s, rfl, fun u o ho => ho⟩
        intro x hx
        have he := h.elems
        have hlen : s.accessList.length = 0 := by omega
        have hnil : s.accessList = [] := List.length_eq_zero.mp hlen
        have : s.expireList = [] := (h.perm_ae.symm.trans (hnil ▸ List.Perm.refl _)).eq_nil
        rw [this] at hx
        simp at hx

/-- Same statement for the wrapper. -/
theorem evictExpiry_spec (now : Int) (s : CacheState) :
    ∀ s', Cache.evictExpiry now s = some s' → WF s →
      WF s' ∧ (∀ x ∈ s'.expireList, now ≤ x.expirationTime) ∧
        s'.accessList.Sublist s.accessList ∧ SameConfig s s' ∧
        (∀ u o, lookupKey u s'.map = some o → lookupKey u s.map = some o) := by
  intro s' hev h
  obtain ⟨h1, h2, h3, h4, h5, h6⟩ := evictExpiryFuel_spec now _ s s' hev h
  exact ⟨h1, h2, h3, h4, h6⟩

/-- With enough fuel, the invariant rules out the empty-index error in the
expiry loop. -/
theorem evictExpiryFuel_total (now : Int) (fuel : Nat) :
    ∀ s, WF s → s.expireList.length < fuel → ∃ s', Cache.evictExpiryFuel now fuel s = some s' := by
  induction fuel with
  | zero =>
      intro s _ hlt
      exact absurd hlt (Nat.not_lt_zero _)
  | succ fuel ih =>
      intro s h hlt
      by_cases hguard : s.numElems > 0
      · cases hexp : s.expireList with
        | nil =>
            have he := h.elems
            have hlen : s.expireList.length = 0 := by
              rw [hexp]
              rfl
            have hlen2 : s.accessList.length = 0 := by
              rw [h.perm_ae.length_eq, hlen]
            omega
        | cons a rest =>
            by_cases hexpd : a.expirationTime < now
            · have h2 := WF_popExpire h hexp
              have hlen : rest.length < fuel := by
                rw [hexp] at hlt
                simp only [List.length_cons] at hlt
                omega
              obtain ⟨s', hs'⟩ := ih _ h2 hlen
              refine ⟨s', ?_⟩
              rw [evictExpiryFuel_succ_expired hguard hexp hexpd]
              exact hs'
            · exact ⟨s, evictExpiryFuel_succ_live hguard hexp hexpd⟩
      · exact ⟨s, evictExpiryFuel_succ_zero hguard⟩

/-- Under the invariant, the expiry loop never hits the empty-index
error. -/
theorem evictExpiry_total (now : Int) (s : CacheState) :
    WF s → ∃ s', Cache.evictExpiry now s = some s' := by
  intro h
  exact evictExpiryFuel_total now _ s h (Nat.lt_succ_self _)

/-- Combined integrity check: invariant preserved, no expired entry
remains, entries shrink to a sublist, configuration and lock untouched,
surviving map bindings were already present. -/
theorem checkCacheIntegrity_spec {now : Int} {s s' : CacheState}
    (hev : Cache.checkCacheIntegrity now s = some s') (h : WF s) :
    WF s' ∧ (∀ x ∈ s'.expireList, now ≤ x.expirationTime) ∧
      s'.accessList.Sublist s.accessList ∧ SameConfig s s' ∧
      (∀ u o, lookupKey u s'.map = some o → lookupKey u s.map = some o) := by
  unfold Cache.checkCacheIntegrity at hev
  cases hm : Cache.evictCapacity s with
  | none =>
      rw [hm] at hev
      exact absurd hev (Option.noConfusion)
  | some mid =>
      rw [hm] at hev
      have hev2 : Cache.evictExpiry now mid = some s' := hev
      obtain ⟨hwf1, he1, hb1, hsub1, hcfg1, hlk1⟩ := evictCapacity_spec s mid hm h
      obtain ⟨hwf2, hne, hsub2, hcfg2, hlk2⟩ := evictExpiry_spec now mid s' hev2 hwf1
      exact ⟨hwf2, hne, hsub2.trans hsub1, sameConfig_trans hcfg1 hcfg2,
        fun u o ho => hlk1 u o (hlk2 u o ho)⟩

/-- Under the invariant with nonnegative budgets, the integrity check
always completes. -/
theorem checkCacheIntegrity_total (now : Int) {s : CacheState} (h : WF s)
    (hme : 0 ≤ s.maxElems) (hmb : 0 ≤ s.maxBytes) :
    ∃ s', Cache.checkCacheIntegrity now s = some s' := by
  obtain ⟨mid, hm⟩ := evictCapacity_total s h hme hmb
  obtain ⟨s', hs'⟩ := evictExpiry_total now mid (evictCapacity_spec s mid hm h).1
  refine ⟨s', ?_⟩
  unfold Cache.checkCacheIntegrity
  rw [hm]
  exact hs'

/-- After the capacity loop completes, both budgets hold; together with a
later entry shrink this keeps the counters bounded. -/
theorem counters_le_of_sublist {s t : CacheState} (hs : WF s) (ht : WF t)
    (hsub : t.accessList.Sublist s.accessList) (hsz : SizesNonneg s) :
    t.numElems ≤ s.numElems ∧ t.numBytes ≤ s.numBytes := by
  constructor
  · have h1 := hsub.length_le
    have he1 := hs.elems
    have he2 := ht.elems
    omega
  · have hsum : (t.accessList.map CacheObject.size).sum ≤
        (s.accessList.map CacheObject.size).sum := by
      refine List.Sublist.sum_le_sum (hsub.map CacheObject.size) ?_
      intro a ha
      obtain ⟨x, hx, hax⟩ := List.mem_map.mp ha
      exact hax ▸ hsz x hx
    have hb1 := hs.bytes
    have hb2 := ht.bytes
    omega

theorem sizesNonneg_of_sublist {s t : CacheState}
    (hsub : t.accessList.Sublist s.accessList) (h : SizesNonneg s) : SizesNonneg t :=
  fun x hx => h x (hsub.subset hx)

/-- Inserting a fresh url preserves the consistency invariant. -/
theorem WF_insertNew {s : CacheState} {url : String} {numBytes accessTime effDuration : Int}
    {data : String} {headers : List (String × String)} (h : WF s)
    (hnew : containsKey url s.map = false) :
    WF (Cache.insertNew s url numBytes accessTime effDuration data headers) := by
  have hnone : lookupKey url s.map = none := by
    unfold containsKey at hnew
    cases hl : lookupKey url s.map with
    | none => rfl
    | some o =>
        rw [hl] at hnew
        simp at hnew
  have hnotin : url ∉ s.map.map Prod.fst := lookupKey_none_iff.mp hnone
  unfold Cache.insertNew
  refine ⟨?_, ?_, ?_, ?_, ?_, ?_, ?_, ?_⟩
  · refine ((insortRight_perm _ _ s.accessList).trans ?_).trans
      (insortRight_perm _ _ s.expireList).symm
    exact h.perm_ae.cons _
  · simp only [List.map_cons]
    exact (h.map_perm.cons _).trans (insortRight_perm _ _ s.accessList).symm
  · intro p hp
    rcases List.mem_cons.mp hp with h1 | h1
    · rw [h1]
    · exact h.map_keys p h1
  · simp only [List.map_cons]
    exact List.nodup_cons.mpr ⟨hnotin, h.keys_nodup⟩
  · have hlen := (insortRight_perm (fun o => o.lastAccessTime)
      { url := url, lastAccessTime := accessTime, expirationTime := accessTime + effDuration,
        size := numBytes, data := data, headers := headers } s.accessList).length_eq
    have he := h.elems
    simp only [List.length_cons] at hlen
    simp only
    push_cast [hlen]
    omega
  · have hsum := ((insortRight_perm (fun o => o.lastAccessTime)
      { url := url, lastAccessTime := accessTime, expirationTime := accessTime + effDuration,
        size := numBytes, data := data, headers := headers } s.accessList).map
        CacheObject.size).sum_eq
    have hb := h.bytes
    simp only [List.map_cons, List.sum_cons] at hsum
    simp only
    omega
  · exact insortRight_pairwise h.sorted_a
  · exact insortRight_pairwise h.sorted_e

/- ----------------------------------------------------------------------
Invariant preservation through the public operations.
---------------------------------------------------------------------- -/

/-- A cache hit (the recency refresh of `Cache.get`) preserves the
consistency invariant. -/
theorem WF_getHit {s1 : CacheState} {url : String} {oldCache : CacheObject} {now : Int}
    (h : WF s1) (hl : lookupKey url s1.map = some oldCache) :
    WF { s1 with
      accessList := insortRight (fun o => o.lastAccessTime)
        { oldCache with lastAccessTime := now } (s1.accessList.erase oldCache)
      expireList := replaceObj oldCache { oldCache with lastAccessTime := now } s1.expireList
      map := updateKey url { oldCache with lastAccessTime := now } s1.map
      locked := false } := by
  have hmema : oldCache ∈ s1.accessList := (h.lookup_mem hl).1
  have hurl : oldCache.url = url := (h.lookup_mem hl).2
  have hmeme : oldCache ∈ s1.expireList := h.perm_ae.mem_iff.mp hmema
  have hmemm : (url, oldCache) ∈ s1.map := lookupKey_some_mem hl
  refine ⟨?_, ?_, ?_, ?_, ?_, ?_, ?_, ?_⟩
  · refine ((insortRight_perm _ _ _).trans ?_).trans (replaceObj_perm _ hmeme).symm
    exact (h.perm_ae.erase oldCache).cons _
  · refine (updateKey_snd_perm h.keys_nodup h.map_keys hmemm).trans ?_
    refine ((h.map_perm.erase oldCache).cons _).trans (insortRight_perm _ _ _).symm
  · intro p hp
    rcases updateKey_mem hp with h1 | h1
    · exact h.map_keys p h1
    · rw [h1]
      exact hurl
  · rw [updateKey_fst]
    exact h.keys_nodup
  · have hlen := (insortRight_perm (fun o => o.lastAccessTime)
      { oldCache with lastAccessTime := now } (s1.accessList.erase oldCache)).length_eq
    have herase : (s1.accessList.erase oldCache).length = s1.accessList.length - 1 :=
      List.length_erase_of_mem hmema
    have hpos : 0 < s1.accessList.length := List.length_pos.mpr (List.ne_nil_of_mem hmema)
    have he := h.elems
    simp only [List.length_cons] at hlen
    simp only
    push_cast [hlen, herase]
    omega
  · have hsum := ((insortRight_perm (fun o => o.lastAccessTime)
      { oldCache with lastAccessTime := now } (s1.accessList.erase oldCache)).map
        CacheObject.size).sum_eq
    have hperm : s1.accessList.Perm (oldCache :: s1.accessList.erase oldCache) :=
      List.perm_cons_erase hmema
    have hsum2 := (hperm.map CacheObject.size).sum_eq
    have hb := h.bytes
    simp only [List.map_cons, List.sum_cons] at hsum hsum2
    simp only
    omega
  · exact insortRight_pairwise (h.sorted_a.sublist (List.erase_sublist oldCache s1.accessList))
  · refine replaceObj_pairwise h.sorted_e (fun x hx => ?_) (fun x hx => ?_) <;> exact hx

/-- Everything `Cache.get` guarantees when it completes: the invariant is
preserved, the lock is released, the configuration is untouched, a
returned entry is not expired, and the map content at other urls is
explained by the integrity pass. -/
theorem get_spec {now : Int} {s : CacheState} {url : String} {s' : CacheState}
    {r : Option CacheObject} (h : WF s) (hev : Cache.get now s url = some (s', r)) :
    WF s' ∧ s'.locked = false ∧ SameConfig s s' ∧
      (∀ e, r = some e → now ≤ e.expirationTime) := by
  unfold Cache.get at hev
  by_cases hlk : s.locked
  · rw [if_pos hlk] at hev
    exact absurd hev (Option.noConfusion)
  · rw [if_neg hlk] at hev
    cases hci : Cache.checkCacheIntegrity now { s with locked := true } with
    | none =>
        rw [hci] at hev
        exact absurd hev (Option.noConfusion)
    | some s1 =>
        rw [hci] at hev
        obtain ⟨hwf1, hne1, hsub1, hcfg1, hlk1⟩ :=
          checkCacheIntegrity_spec hci (h.setLocked true)
        have hev2 : (match lookupKey url s1.map with
          | none => some ({ s1 with locked := false }, none)
          | some oldCache =>
              some ({ s1 with
                accessList := insortRight (fun o => o.lastAccessTime)
                  { oldCache with lastAccessTime := now } (s1.accessList.erase oldCache)
                expireList :=
                  replaceObj oldCache { oldCache with lastAccessTime := now } s1.expireList
                map := updateKey url { oldCache with lastAccessTime := now } s1.map
                locked := false }, some { oldCache with lastAccessTime := now })) =
            some (s', r) := hev
        cases hl : lookupKey url s1.map with
        | none =>
            rw [hl] at hev2
            simp only [Option.some.injEq, Prod.mk.injEq] at hev2
            obtain ⟨hev3, hev4⟩ := hev2
            subst hev3
            subst hev4
            refine ⟨hwf1.setLocked false, rfl, hcfg1, ?_⟩
            intro e he
            exact absurd he (Option.noConfusion)
        | some oldCache =>
            rw [hl] at hev2
            simp only [Option.some.injEq, Prod.mk.injEq] at hev2
            obtain ⟨hev3, hev4⟩ := hev2
            subst hev3
            subst hev4
            refine ⟨WF_getHit hwf1 hl, rfl, hcfg1, ?_⟩
            intro e he
            cases he
            have hmeme : oldCache ∈ s1.expireList :=
              hwf1.perm_ae.mem_iff.mp (hwf1.lookup_mem hl).1
            exact hne1 oldCache hmeme

/-- Everything `Cache.cache` guarantees when it completes: the invariant
and the configuration are preserved, the lock state is restored, and the
call either left the state unchanged (a rejected insert) or produced a
state within both budgets (given nonnegative sizes). -/
theorem cache_spec {now : Int} {s : CacheState} {url : String} {nb accessTime dur : Int}
    {data : String} {headers : List (String × String)} {s' : CacheState}
    (h : WF s) (hev : Cache.cache now s url nb accessTime dur data headers = some s') :
    WF s' ∧ SameConfig s s' ∧ s'.locked = s.locked ∧
      (s' = s ∨ (SizesNonneg s → 0 ≤ nb →
        SizesNonneg s' ∧ s'.numElems ≤ s'.maxElems ∧ s'.numBytes ≤ s'.maxBytes)) := by
  unfold Cache.cache at hev
  by_cases hd : dur < s.minDuration
  · rw [if_pos hd] at hev
    simp only [Option.some.injEq] at hev
    subst hev
    exact ⟨h, sameConfig_refl s, rfl, Or.inl rfl⟩
  · rw [if_neg hd] at hev
    by_cases hby : nb > s.maxBytes
    · rw [if_pos hby] at hev
      simp only [Option.some.injEq] at hev
      subst hev
      exact ⟨h, sameConfig_refl s, rfl, Or.inl rfl⟩
    · rw [if_neg hby] at hev
      by_cases hlk : s.locked = true
      · rw [if_pos hlk] at hev
        exact absurd hev (Option.noConfusion)
      · rw [if_neg hlk] at hev
        by_cases hck : containsKey url s.map = true
        · rw [if_pos hck] at hev
          have hget : Cache.get now { s with locked := true } url = none := by
            unfold Cache.get
            rw [if_pos rfl]
          rw [hget] at hev
          exact absurd hev (Option.noConfusion)
        · rw [if_neg hck] at hev
          have hck2 : containsKey url s.map = false := by
            cases hc : containsKey url s.map
            · rfl
            · exact absurd hc hck
          have hwf0 : WF (Cache.insertNew { s with locked := true } url nb accessTime
              (if dur ≥ s.maxDuration then s.maxDuration else dur) data headers) :=
            WF_insertNew (h.setLocked true) hck2
          cases hci : Cache.checkCacheIntegrity now
              (Cache.insertNew { s with locked := true } url nb accessTime
                (if dur ≥ s.maxDuration then s.maxDuration else dur) data headers) with
          | none =>
              rw [hci] at hev
              exact absurd hev (Option.noConfusion)
          | some s3 =>
              rw [hci] at hev
              have hev2 : some { s3 with locked := false } = some s' := hev
              simp only [Option.some.injEq] at hev2
              subst hev2
              unfold Cache.checkCacheIntegrity at hci
              cases hcap : Cache.evictCapacity (Cache.insertNew { s with locked := true } url nb
                  accessTime (if dur ≥ s.maxDuration then s.maxDuration else dur) data
                  headers) with
              | none =>
                  rw [hcap] at hci
                  exact absurd hci (Option.noConfusion)
              | some mid1 =>
                  rw [hcap] at hci
                  have hexp : Cache.evictExpiry now mid1 = some s3 := hci
                  obtain ⟨hwf1, he1, hb1, hsub1, hcfg1, hl1⟩ :=
                    evictCapacity_spec _ mid1 hcap hwf0
                  obtain ⟨hwf3, hne3, hsub3, hcfg3, hl3⟩ :=
                    evictExpiry_spec now mid1 s3 hexp hwf1
                  refine ⟨hwf3.setLocked false, ?_, ?_, Or.inr ?_⟩
                  · exact sameConfig_trans (sameConfig_trans ⟨rfl, rfl, rfl, rfl⟩ hcfg1) hcfg3
                  · cases hsl : s.locked
                    · rfl
                    · exact absurd hsl hlk
                  · intro hsz hnb
                    have hsz0 : SizesNonneg (Cache.insertNew { s with locked := true } url nb
                        accessTime (if dur ≥ s.maxDuration then s.maxDuration else dur) data
                        headers) := by
                      intro x hx
                      have hx2 := (insortRight_perm _ _ _).mem_iff.mp hx
                      rcases List.mem_cons.mp hx2 with h1 | h1
                      · rw [h1]
                        exact hnb
                      · exact hsz x h1
                    have hsz1 := sizesNonneg_of_sublist hsub1 hsz0
                    have hsz3 := sizesNonneg_of_sublist hsub3 hsz1
                    obtain ⟨hle, hbe⟩ := counters_le_of_sublist hwf1 hwf3 hsub3 hsz1
                    refine ⟨hsz3, ?_, ?_⟩
                    · have hme := hcfg3.2.2.2
                      simp only at hme ⊢
                      omega
                    · have hmb := hcfg3.2.2.1
                      simp only at hmb ⊢
                      omega

/-- `Cache.has` when it completes: the state is unchanged and the answer
is map membership. -/
theorem has_spec {s : CacheState} {url : String} {s' : CacheState} {b : Bool}
    (hev : Cache.has s url = some (s', b)) : s' = s ∧ b = containsKey url s.map := by
  unfold Cache.has at hev
  by_cases hlk : s.locked = true
  · rw [if_pos hlk] at hev
    exact absurd hev (Option.noConfusion)
  · rw [if_neg hlk] at hev
    simp only [Option.some.injEq, Prod.mk.injEq] at hev
    exact ⟨hev.1.symm, hev.2.symm⟩

/-- The freshly initialised cache satisfies the consistency invariant. -/
theorem WF_init (a b c d : Int) : WF (Cache.init a b c d) := by
  refine ⟨?_, ?_, ?_, ?_, ?_, ?_, ?_, ?_⟩ <;> simp [Cache.init]

/-- One completed `Cache.cache` call preserves the inductive invariant. -/
theorem cacheInv_step {now : Int} {s : CacheState} {url : String} {nb accessTime dur : Int}
    {data : String} {headers : List (String × String)} {s' : CacheState}
    (hinv : CacheInv s) (hnb : 0 ≤ nb)
    (hev : Cache.cache now s url nb accessTime dur data headers = some s') : CacheInv s' := by
  obtain ⟨hwf, hlk, hsz, hme, hmb, hne, hby⟩ := hinv
  obtain ⟨hwf2, hcfg, hlk2, hrest⟩ := cache_spec hwf hev
  obtain ⟨hc1, hc2, hc3, hc4⟩ := hcfg
  rcases hrest with rfl | hbud
  · exact ⟨hwf, hlk, hsz, hme, hmb, hne, hby⟩
  · obtain ⟨hsz2, hne2, hby2⟩ := hbud hsz hnb
    exact ⟨hwf2, hlk2.trans hlk, hsz2, hc4 ▸ hme, hc3 ▸ hmb, hne2, hby2⟩

/-- Every completed prefix of a sequence of `Cache.cache` calls with
nonnegative sizes preserves the inductive invariant. -/
theorem runCalls_inv {calls : List CacheCall} :
    ∀ s s', CacheInv s → (∀ c ∈ calls, 0 ≤ c.numBytes) → runCalls s calls = some s' →
      CacheInv s' := by
  induction calls with
  | nil =>
      intro s s' hinv _ hev
      unfold runCalls at hev
      simp only [Option.some.injEq] at hev
      subst hev
      exact hinv
  | cons c cs ih =>
      intro s s' hinv hnb hev
      unfold runCalls at hev
      cases hc : Cache.cache c.now s c.url c.numBytes c.accessTime c.duration c.data
          c.headers with
      | none =>
          rw [hc] at hev
          exact absurd hev (Option.noConfusion)
      | some s1 =>
          rw [hc] at hev
          have hev2 : runCalls s1 cs = some s' := hev
          exact ih s1 s' (cacheInv_step hinv (hnb c (List.mem_cons_self c cs)) hc)
            (fun c2 h2 => hnb c2 (List.mem_cons_of_mem c h2)) hev2

/-- A `Cache.get` on a url whose stored entry is already expired completes
as a miss and purges the entry from the map and from both orderings. -/
theorem get_expired_miss {now : Int} {s : CacheState} {url : String} {o : CacheObject}
    (h : WF s) (hlk : s.locked = false) (hme : 0 ≤ s.maxElems) (hmb : 0 ≤ s.maxBytes)
    (hl : lookupKey url s.map = some o) (hexp : o.expirationTime < now) :
    ∃ s', Cache.get now s url = some (s', none) ∧ WF s' ∧ lookupKey url s'.map = none ∧
      (∀ x ∈ s'.accessList, x.url ≠ url) ∧ (∀ x ∈ s'.expireList, x.url ≠ url) := by
  obtain ⟨s1, hci⟩ := checkCacheIntegrity_total now (h.setLocked true) hme hmb
  obtain ⟨hwf1, hne1, hsub1, hcfg1, hlk1⟩ := checkCacheIntegrity_spec hci (h.setLocked true)
  have hnone : lookupKey url s1.map = none := by
    cases hq : lookupKey url s1.map with
    | none => rfl
    | some e =>
        have heq : lookupKey url s.map = some e := hlk1 url e hq
        rw [hl] at heq
        simp only [Option.some.injEq] at heq
        subst heq
        have hmem : o ∈ s1.expireList := hwf1.perm_ae.mem_iff.mp (hwf1.lookup_mem hq).1
        have := hne1 o hmem
        omega
  refine ⟨{ s1 with locked := false }, ?_, hwf1.setLocked false, hnone, ?_, ?_⟩
  · unfold Cache.get
    rw [if_neg (by simp [hlk])]
    rw [hci]
    have : (match lookupKey url s1.map with
      | none => some ({ s1 with locked := false }, (none : Option CacheObject))
      | some oldCache =>
          some ({ s1 with
            accessList := insortRight (fun o => o.lastAccessTime)
              { oldCache with lastAccessTime := now } (s1.accessList.erase oldCache)
            expireList :=
              replaceObj oldCache { oldCache with lastAccessTime := now } s1.expireList
            map := updateKey url { oldCache with lastAccessTime := now } s1.map
            locked := false }, some { oldCache with lastAccessTime := now })) =
        some ({ s1 with locked := false }, none) := by
      rw [hnone]
    exact this
  · exact hwf1.lookup_none hnone
  · intro x hx
    exact hwf1.lookup_none hnone x (hwf1.perm_ae.mem_iff.mpr hx)

/-- A `Cache.get` that completes as a miss leaves a consistent, unlocked
state whose map does not contain the url. -/
theorem get_miss_spec {now : Int} {s : CacheState} {url : String} {s1 : CacheState}
    (h : WF s) (hev : Cache.get now s url = some (s1, none)) :
    WF s1 ∧ s1.locked = false ∧ lookupKey url s1.map = none ∧ SameConfig s s1 := by
  unfold Cache.get at hev
  by_cases hlk : s.locked = true
  · rw [if_pos hlk] at hev
    exact absurd hev (Option.noConfusion)
  · rw [if_neg hlk] at hev
    cases hci : Cache.checkCacheIntegrity now { s with locked := true } with
    | none =>
        rw [hci] at hev
        exact absurd hev (Option.noConfusion)
    | some t =>
        rw [hci] at hev
        obtain ⟨hwf1, hne1, hsub1, hcfg1, hlk1⟩ :=
          checkCacheIntegrity_spec hci (h.setLocked true)
        have hev2 : (match lookupKey url t.map with
          | none => some ({ t with locked := false }, (none : Option CacheObject))
          | some oldCache =>
              some ({ t with
                accessList := insortRight (fun o => o.lastAccessTime)
                  { oldCache with lastAccessTime := now } (t.accessList.erase oldCache)
                expireList :=
                  replaceObj oldCache { oldCache with lastAccessTime := now } t.expireList
                map := updateKey url { oldCache with lastAccessTime := now } t.map
                locked := false }, some { oldCache with lastAccessTime := now })) =
            some (s1, none) := hev
        cases hl : lookupKey url t.map with
        | none =>
            rw [hl] at hev2
            simp only [Option.some.injEq, Prod.mk.injEq] at hev2
            obtain ⟨hev3, hev4⟩ := hev2
            subst hev3
            exact ⟨hwf1.setLocked false, rfl, hl, hcfg1⟩
        | some oldCache =>
            rw [hl] at hev2
            simp only [Option.some.injEq, Prod.mk.injEq] at hev2
            exact absurd hev2.2 (Option.noConfusion)

/- ----------------------------------------------------------------------
The claims.
---------------------------------------------------------------------- -/

/-- C1 (capacity invariant): for every sequence of completed `Cache.cache`
calls starting from a freshly initialised cache with nonnegative byte and
element budgets, each call passing a nonnegative size, the resulting state
satisfies `numElems ≤ maxElems` and `numBytes ≤ maxBytes` (every completed
prefix is itself such a sequence, so the bound holds after each call). -/
theorem capacity_invariant_after_cache_calls
    (cacheDuration cacheMinDuration cacheSizeBytes cacheSizeElements : Int)
    (calls : List CacheCall) (s' : CacheState)
    (hbytes : 0 ≤ cacheSizeBytes) (helems : 0 ≤ cacheSizeElements)
    (hnb : ∀ c ∈ calls, 0 ≤ c.numBytes)
    (hrun : runCalls (Cache.init cacheDuration cacheMinDuration cacheSizeBytes
      cacheSizeElements) calls = some s') :
    s'.numElems ≤ s'.maxElems ∧ s'.numBytes ≤ s'.maxBytes := by
  have hinv0 : CacheInv (Cache.init cacheDuration cacheMinDuration cacheSizeBytes
      cacheSizeElements) := by
    refine ⟨WF_init _ _ _ _, rfl, ?_, helems, hbytes, ?_, ?_⟩
    · intro x hx
      simp [Cache.init] at hx
    · simp [Cache.init]
      exact helems
    · simp [Cache.init]
      exact hbytes
  have hinv := runCalls_inv _ _ hinv0 hnb hrun
  exact ⟨hinv.2.2.2.2.2.1, hinv.2.2.2.2.2.2⟩

theorem capacity_invariant_witness :
    ({ maxDuration := 100, minDuration := 5, maxBytes := 1000, maxElems := 10,
       numElems := 1, numBytes := 10,
       accessList := [{ url := "a", lastAccessTime := 0, expirationTime := 50, size := 10,
                        data := "d", headers := [] }],
       expireList := [{ url := "a", lastAccessTime := 0, expirationTime := 50, size := 10,
                        data := "d", headers := [] }],
       map := [("a", { url := "a", lastAccessTime := 0, expirationTime := 50, size := 10,
                       data := "d", headers := [] })],
       locked := false } : CacheState).numElems ≤
      ({ maxDuration := 100, minDuration := 5, maxBytes := 1000, maxElems := 10,
         numElems := 1, numBytes := 10,
         accessList := [{ url := "a", lastAccessTime := 0, expirationTime := 50, size := 10,
                          data := "d", headers := [] }],
         expireList := [{ url := "a", lastAccessTime := 0, expirationTime := 50, size := 10,
                          data := "d", headers := [] }],
         map := [("a", { url := "a", lastAccessTime := 0, expirationTime := 50, size := 10,
                         data := "d", headers := [] })],
         locked := false } : CacheState).maxElems := by
  have h := capacity_invariant_after_cache_calls 100 5 1000 10
    [{ url := "a", numBytes := 10, accessTime := 0, duration := 50, now := 0,
       data := "d", headers := [] }] _ (by decide) (by decide) (by decide) rfl
  exact h.1

/-- C6 (structural consistency): every public cache operation that
completes preserves the invariant `WF`, which states that the map, the
by-last-access ordering and the by-expiration ordering hold exactly the
same entries with the same count, that `numElems` is the number of entries,
that `numBytes` is the sum of the stored sizes (and that the two orderings
are sorted by their keys). -/
theorem structural_consistency_preserved (s : CacheState) (h : WF s) :
    (∀ now url nb accessTime dur data headers s',
        Cache.cache now s url nb accessTime dur data headers = some s' → WF s') ∧
      (∀ now url s' r, Cache.get now s url = some (s', r) → WF s') ∧
      (∀ url s' b, Cache.has s url = some (s', b) → WF s') := by
  refine ⟨?_, ?_, ?_⟩
  · intro now url nb accessTime dur data headers s' hev
    exact (cache_spec h hev).1
  · intro now url s' r hev
    exact (get_spec h hev).1
  · intro url s' b hev
    rw [(has_spec hev).1]
    exact h

theorem structural_consistency_witness :
    WF ({ maxDuration := 100, minDuration := 5, maxBytes := 1000, maxElems := 10,
          numElems := 1, numBytes := 10,
          accessList := [{ url := "a", lastAccessTime := 0, expirationTime := 50, size := 10,
                           data := "d", headers := [] }],
          expireList := [{ url := "a", lastAccessTime := 0, expirationTime := 50, size := 10,
                           data := "d", headers := [] }],
          map := [("a", { url := "a", lastAccessTime := 0, expirationTime := 50, size := 10,
                          data := "d", headers := [] })],
          locked := false } : CacheState) := by
  have h0 : WF (Cache.init 100 5 1000 10) :=
    ⟨by decide, by decide, by decide, by decide, by decide, by decide, by decide, by decide⟩
  exact (structural_consistency_preserved _ h0).1 0 "a" 10 0 50 "d" [] _ rfl

/-- C2 (expiry postcondition of get): under the consistency invariant with
an unlocked cache and nonnegative budgets, (i) any entry returned by
`Cache.get` satisfies `expirationTime ≥ now`, and (ii) a get on a key whose
stored entry is expired completes as a miss and removes the entry from the
map, from both orderings, and updates the counters consistently. -/
theorem get_expiry_postcondition (now : Int) (s : CacheState) (url : String)
    (h : WF s) (hlk : s.locked = false) (hme : 0 ≤ s.maxElems) (hmb : 0 ≤ s.maxBytes) :
    (∀ s' e, Cache.get now s url = some (s', some e) → now ≤ e.expirationTime) ∧
      (∀ o, lookupKey url s.map = some o → o.expirationTime < now →
        ∃ s', Cache.get now s url = some (s', none) ∧ lookupKey url s'.map = none ∧
          (∀ x ∈ s'.accessList, x.url ≠ url) ∧ (∀ x ∈ s'.expireList, x.url ≠ url) ∧
          s'.numElems = (s'.accessList.length : Int) ∧
          s'.numBytes = (s'.accessList.map CacheObject.size).sum) := by
  constructor
  · intro s' e hev
    exact (get_spec h hev).2.2.2 e rfl
  · intro o hl hexp
    obtain ⟨s', hget, hwf', hnone, hacc, hexp2⟩ := get_expired_miss h hlk hme hmb hl hexp
    exact ⟨s', hget, hnone, hacc, hexp2, hwf'.elems, hwf'.bytes⟩

theorem get_expiry_witness :
    (60 : Int) ≤ 60 ∧
      ∃ s', Cache.get 60
          { maxDuration := 100, minDuration := 5, maxBytes := 1000, maxElems := 10,
            numElems := 1, numBytes := 10,
            accessList := [{ url := "a", lastAccessTime := 0, expirationTime := 50,
                             size := 10, data := "d", headers := [] }],
            expireList := [{ url := "a", lastAccessTime := 0, expirationTime := 50,
                             size := 10, data := "d", headers := [] }],
            map := [("a", { url := "a", lastAccessTime := 0, expirationTime := 50,
                            size := 10, data := "d", headers := [] })],
            locked := false }
          "a" = some (s', none) ∧ lookupKey "a" s'.map = none := by
  refine ⟨le_refl 60, ?_⟩
  have h := (get_expiry_postcondition 60
    { maxDuration := 100, minDuration := 5, maxBytes := 1000, maxElems := 10,
      numElems := 1, numBytes := 10,
      accessList := [{ url := "a", lastAccessTime := 0, expirationTime := 50,
                       size := 10, data := "d", headers := [] }],
      expireList := [{ url := "a", lastAccessTime := 0, expirationTime := 50,
                       size := 10, data := "d", headers := [] }],
      map := [("a", { url := "a", lastAccessTime := 0, expirationTime := 50,
                      size := 10, data := "d", headers := [] })],
      locked := false }
    "a"
    ⟨by decide, by decide, by decide, by decide, by decide, by decide, by decide, by decide⟩
    rfl (by decide) (by decide)).2
    { url := "a", lastAccessTime := 0, expirationTime := 50, size := 10, data := "d",
      headers := [] } rfl (by decide)
  obtain ⟨s', hget, hnone, _⟩ := h
  exact ⟨s', hget, hnone⟩

/-- C10 (has does no expiry housekeeping): with an entry present whose
expiration is already past, `Cache.has` still answers true while an
immediately following `Cache.get` at the same time answers a miss — so a
true `has` does not imply a `get` hit. -/
theorem has_expired_get_misses (now : Int) (s : CacheState) (url : String) (o : CacheObject)
    (h : WF s) (hlk : s.locked = false) (hme : 0 ≤ s.maxElems) (hmb : 0 ≤ s.maxBytes)
    (hl : lookupKey url s.map = some o) (hexp : o.expirationTime < now) :
    Cache.has s url = some (s, true) ∧ ∃ s', Cache.get now s url = some (s', none) := by
  constructor
  · unfold Cache.has
    rw [if_neg (by simp [hlk])]
    have hct : containsKey url s.map = true := by
      unfold containsKey
      rw [hl]
      rfl
    rw [hct]
  · obtain ⟨s', hget, _⟩ := get_expired_miss h hlk hme hmb hl hexp
    exact ⟨s', hget⟩

theorem has_expired_witness :
    Cache.has
        { maxDuration := 100, minDuration := 5, maxBytes := 1000, maxElems := 10,
          numElems := 1, numBytes := 10,
          accessList := [{ url := "a", lastAccessTime := 0, expirationTime := 50,
                           size := 10, data := "d", headers := [] }],
          expireList := [{ url := "a", lastAccessTime := 0, expirationTime := 50,
                           size := 10, data := "d", headers := [] }],
          map := [("a", { url := "a", lastAccessTime := 0, expirationTime := 50,
                          size := 10, data := "d", headers := [] })],
          locked := false }
        "a" =
      some
        ({ maxDuration := 100, minDuration := 5, maxBytes := 1000, maxElems := 10,
           numElems := 1, numBytes := 10,
           accessList := [{ url := "a", lastAccessTime := 0, expirationTime := 50,
                            size := 10, data := "d", headers := [] }],
           expireList := [{ url := "a", lastAccessTime := 0, expirationTime := 50,
                            size := 10, data := "d", headers := [] }],
           map := [("a", { url := "a", lastAccessTime := 0, expirationTime := 50,
                           size := 10, data := "d", headers := [] })],
           locked := false }, true) ∧
      ∃ s', Cache.get 60
          { maxDuration := 100, minDuration := 5, maxBytes := 1000, maxElems := 10,
            numElems := 1, numBytes := 10,
            accessList := [{ url := "a", lastAccessTime := 0, expirationTime := 50,
                             size := 10, data := "d", headers := [] }],
            expireList := [{ url := "a", lastAccessTime := 0, expirationTime := 50,
                             size := 10, data := "d", headers := [] }],
            map := [("a", { url := "a", lastAccessTime := 0, expirationTime := 50,
                            size := 10, data := "d", headers := [] })],
            locked := false }
          "a" = some (s', none) :=
  has_expired_get_misses 60 _ "a"
    { url := "a", lastAccessTime := 0, expirationTime := 50, size := 10, data := "d",
      headers := [] }
    ⟨by decide, by decide, by decide, by decide, by decide, by decide, by decide, by decide⟩
    rfl (by decide) (by decide) rfl (by decide)

/-- The conditional clamp of `Cache.cache` computes the minimum of the
requested duration and `maxDuration`. -/
theorem clamp_eq_min (dur mx : Int) : (if dur ≥ mx then mx else dur) = min dur mx := by
  by_cases h : dur ≥ mx
  · rw [if_pos h, min_eq_right h]
  · rw [if_neg h, min_eq_left (le_of_lt (lt_of_not_ge h))]

/-- C3 (put admission policy): with the url not yet present (and the lock
free), a call with `duration < minDuration` or `numBytes > maxBytes` is a
silent no-op that returns with the state unchanged; otherwise the call
inserts a new entry whose `expirationTime` is
`accessTime + min duration maxDuration` (a requested duration at or above
`maxDuration` is clamped down) and then runs the integrity check. -/
theorem put_admission_policy (now : Int) (s : CacheState) (url : String)
    (numBytes accessTime duration : Int) (data : String) (headers : List (String × String))
    (hck : containsKey url s.map = false) (hlk : s.locked = false) :
    ((duration < s.minDuration ∨ numBytes > s.maxBytes) →
      Cache.cache now s url numBytes accessTime duration data headers = some s) ∧
      (s.minDuration ≤ duration → numBytes ≤ s.maxBytes →
        Cache.cache now s url numBytes accessTime duration data headers =
          (Cache.checkCacheIntegrity now (Cache.insertNew { s with locked := true } url
              numBytes accessTime (min duration s.maxDuration) data headers)).bind
            (fun s2 => some { s2 with locked := false }) ∧
        lookupKey url (Cache.insertNew { s with locked := true } url numBytes accessTime
            (min duration s.maxDuration) data headers).map =
          some { url := url, lastAccessTime := accessTime,
                 expirationTime := accessTime + min duration s.maxDuration,
                 size := numBytes, data := data, headers := headers }) := by
  constructor
  · intro hrej
    unfold Cache.cache
    by_cases hd : duration < s.minDuration
    · rw [if_pos hd]
    · rcases hrej with hrej | hrej
      · exact absurd hrej hd
      · rw [if_neg hd, if_pos hrej]
  · intro hdmin hbmax
    constructor
    · unfold Cache.cache
      rw [if_neg (not_lt.mpr hdmin), if_neg (not_lt.mpr hbmax), if_neg (by simp [hlk]),
        if_neg (by simp [hck]), clamp_eq_min]
    · exact lookupKey_cons_self url _ s.map

theorem put_admission_witness :
    Cache.cache 0 (Cache.init 100 5 1000 10) "a" 10 0 3 "d" [] =
        some (Cache.init 100 5 1000 10) ∧
      lookupKey "b" (Cache.insertNew { Cache.init 100 5 1000 10 with locked := true } "b" 10 0
          (min 200 (100 : Int)) "d" []).map =
        some { url := "b", lastAccessTime := 0, expirationTime := 0 + min 200 (100 : Int),
               size := 10, data := "d", headers := [] } := by
  constructor
  · exact (put_admission_policy 0 (Cache.init 100 5 1000 10) "a" 10 0 3 "d" []
      (by decide) rfl).1 (Or.inl (by decide))
  · exact ((put_admission_policy 0 (Cache.init 100 5 1000 10) "b" 10 0 200 "d" []
      (by decide) rfl).2 (by decide) (by decide)).2

/-- C4 (code bug): a `Cache.cache` call on a key that is already present
(and that passes the duration and size checks) acquires the non-reentrant
lock and then calls `Cache.get`, which tries to acquire the same lock
again — the call blocks forever instead of degrading to a read (modelled
as `none`, the call never completing). -/
theorem cache_existing_key_deadlocks (now : Int) (s : CacheState) (url : String)
    (numBytes accessTime duration : Int) (data : String) (headers : List (String × String))
    (hck : containsKey url s.map = true) (hlk : s.locked = false)
    (hd : s.minDuration ≤ duration) (hb : numBytes ≤ s.maxBytes) :
    Cache.cache now s url numBytes accessTime duration data headers = none := by
  unfold Cache.cache
  rw [if_neg (not_lt.mpr hd), if_neg (not_lt.mpr hb), if_neg (by simp [hlk]), if_pos hck]
  have hget : Cache.get now { s with locked := true } url = none := by
    unfold Cache.get
    rw [if_pos rfl]
  rw [hget]
  rfl

theorem cache_existing_key_witness :
    Cache.cache 1
        { maxDuration := 100, minDuration := 5, maxBytes := 1000, maxElems := 10,
          numElems := 1, numBytes := 10,
          accessList := [{ url := "a", lastAccessTime := 0, expirationTime := 50,
                           size := 10, data := "d", headers := [] }],
          expireList := [{ url := "a", lastAccessTime := 0, expirationTime := 50,
                           size := 10, data := "d", headers := [] }],
          map := [("a", { url := "a", lastAccessTime := 0, expirationTime := 50,
                          size := 10, data := "d", headers := [] })],
          locked := false }
        "a" 10 1 50 "d" [] = none :=
  cache_existing_key_deadlocks 1 _ "a" 10 1 50 "d" [] (by decide) rfl (by decide) (by decide)

/-- C5 counterexample: on a consistent state holding a least-recently-used
live entry `"a"` and a recently-used but expired entry `"b"`, with room for
only one entry, running capacity eviction first (as the code does) evicts
`"a"` and then expires `"b"`, leaving the cache empty, while running the
expiry pass first removes `"b"` and then finds the capacity satisfied,
keeping `"a"`: the two orders do not reach the same final set of
entries. -/
theorem eviction_order_counterexample :
    WF { maxDuration := 100, minDuration := 5, maxBytes := 100, maxElems := 1,
         numElems := 2, numBytes := 2,
         accessList := [{ url := "a", lastAccessTime := 0, expirationTime := 100, size := 1,
                          data := "da", headers := [] },
                        { url := "b", lastAccessTime := 10, expirationTime := 5, size := 1,
                          data := "db", headers := [] }],
         expireList := [{ url := "b", lastAccessTime := 10, expirationTime := 5, size := 1,
                          data := "db", headers := [] },
                        { url := "a", lastAccessTime := 0, expirationTime := 100, size := 1,
                          data := "da", headers := [] }],
         map := [("a", { url := "a", lastAccessTime := 0, expirationTime := 100, size := 1,
                         data := "da", headers := [] }),
                 ("b", { url := "b", lastAccessTime := 10, expirationTime := 5, size := 1,
                         data := "db", headers := [] })],
         locked := false } ∧
      (Cache.checkCacheIntegrity 50
          { maxDuration := 100, minDuration := 5, maxBytes := 100, maxElems := 1,
            numElems := 2, numBytes := 2,
            accessList := [{ url := "a", lastAccessTime := 0, expirationTime := 100, size := 1,
                             data := "da", headers := [] },
                           { url := "b", lastAccessTime := 10, expirationTime := 5, size := 1,
                             data := "db", headers := [] }],
            expireList := [{ url := "b", lastAccessTime := 10, expirationTime := 5, size := 1,
                             data := "db", headers := [] },
                           { url := "a", lastAccessTime := 0, expirationTime := 100, size := 1,
                             data := "da", headers := [] }],
            map := [("a", { url := "a", lastAccessTime := 0, expirationTime := 100, size := 1,
                            data := "da", headers := [] }),
                    ("b", { url := "b", lastAccessTime := 10, expirationTime := 5, size := 1,
                            data := "db", headers := [] })],
            locked := false }).map (fun t => t.map.map Prod.fst) = some [] ∧
      (checkReversed 50
          { maxDuration := 100, minDuration := 5, maxBytes := 100, maxElems := 1,
            numElems := 2, numBytes := 2,
            accessList := [{ url := "a", lastAccessTime := 0, expirationTime := 100, size := 1,
                             data := "da", headers := [] },
                           { url := "b", lastAccessTime := 10, expirationTime := 5, size := 1,
                             data := "db", headers := [] }],
            expireList := [{ url := "b", lastAccessTime := 10, expirationTime := 5, size := 1,
                             data := "db", headers := [] },
                           { url := "a", lastAccessTime := 0, expirationTime := 100, size := 1,
                             data := "da", headers := [] }],
            map := [("a", { url := "a", lastAccessTime := 0, expirationTime := 100, size := 1,
                            data := "da", headers := [] }),
                    ("b", { url := "b", lastAccessTime := 10, expirationTime := 5, size := 1,
                            data := "db", headers := [] })],
            locked := false }).map (fun t => t.map.map Prod.fst) = some ["a"] := by
  refine ⟨⟨by decide, by decide, by decide, by decide, by decide, by decide, by decide,
    by decide⟩, by decide, by decide⟩

/-- C5 amended: both pass orders terminate from any consistent state with
nonnegative sizes and budgets, and each reaches a state satisfying both
removal criteria (within both budgets and with no expired entry left) —
but the two final entry sets need not coincide; the code runs capacity
eviction first. -/
theorem eviction_passes_both_reach_fixed_point (now : Int) (s : CacheState) (h : WF s)
    (hsz : SizesNonneg s) (hme : 0 ≤ s.maxElems) (hmb : 0 ≤ s.maxBytes) :
    (∃ s1, Cache.checkCacheIntegrity now s = some s1 ∧
      s1.numElems ≤ s1.maxElems ∧ s1.numBytes ≤ s1.maxBytes ∧
      ∀ x ∈ s1.expireList, now ≤ x.expirationTime) ∧
    (∃ s2, checkReversed now s = some s2 ∧
      s2.numElems ≤ s2.maxElems ∧ s2.numBytes ≤ s2.maxBytes ∧
      ∀ x ∈ s2.expireList, now ≤ x.expirationTime) := by
  constructor
  · obtain ⟨mid, hm⟩ := evictCapacity_total s h hme hmb
    obtain ⟨hwf1, he1, hb1, hsub1, hcfg1, hq1⟩ := evictCapacity_spec s mid hm h
    obtain ⟨s1, hs1⟩ := evictExpiry_total now mid hwf1
    obtain ⟨hwf2, hne2, hsub2, hcfg2, hq2⟩ := evictExpiry_spec now mid s1 hs1 hwf1
    have hsz1 := sizesNonneg_of_sublist hsub1 hsz
    obtain ⟨hle, hbe⟩ := counters_le_of_sublist hwf1 hwf2 hsub2 hsz1
    refine ⟨s1, ?_, ?_, ?_, hne2⟩
    · unfold Cache.checkCacheIntegrity
      rw [hm]
      exact hs1
    · have := hcfg2.2.2.2
      omega
    · have := hcfg2.2.2.1
      omega
  · obtain ⟨mid, hm⟩ := evictExpiry_total now s h
    obtain ⟨hwf1, hne1, hsub1, hcfg1, hq1⟩ := evictExpiry_spec now s mid hm h
    have hme1 : 0 ≤ mid.maxElems := by
      have := hcfg1.2.2.2
      omega
    have hmb1 : 0 ≤ mid.maxBytes := by
      have := hcfg1.2.2.1
      omega
    obtain ⟨s2, hs2⟩ := evictCapacity_total mid hwf1 hme1 hmb1
    obtain ⟨hwf2, he2, hb2, hsub2, hcfg2, hq2⟩ := evictCapacity_spec mid s2 hs2 hwf1
    refine ⟨s2, ?_, he2, hb2, ?_⟩
    · unfold checkReversed
      rw [hm]
      exact hs2
    · intro x hx
      have hxa : x ∈ s2.accessList := hwf2.perm_ae.mem_iff.mpr hx
      have hxm : x ∈ mid.accessList := hsub2.subset hxa
      have hxe : x ∈ mid.expireList := hwf1.perm_ae.mem_iff.mp hxm
      exact hne1 x hxe

theorem eviction_passes_witness :
    (∃ s1, Cache.checkCacheIntegrity 0 (Cache.init 100 5 1000 10) = some s1 ∧
      s1.numElems ≤ s1.maxElems ∧ s1.numBytes ≤ s1.maxBytes ∧
      ∀ x ∈ s1.expireList, (0 : Int) ≤ x.expirationTime) ∧
    (∃ s2, checkReversed 0 (Cache.init 100 5 1000 10) = some s2 ∧
      s2.numElems ≤ s2.maxElems ∧ s2.numBytes ≤ s2.maxBytes ∧
      ∀ x ∈ s2.expireList, (0 : Int) ≤ x.expirationTime) :=
  eviction_passes_both_reach_fixed_point 0 (Cache.init 100 5 1000 10)
    ⟨by decide, by decide, by decide, by decide, by decide, by decide, by decide, by decide⟩
    (fun x hx => absurd hx (List.not_mem_nil x)) (by decide) (by decide)

/-- C7 amended: on a cache hit the handler replies with the fixed status
200 (`send_response(200)` on line 200; the upstream status code is not
stored in the entry), the stored headers and the stored body verbatim, and
opens no upstream connection. -/
theorem cache_hit_replay (upstream : String → String → String → UpstreamResult)
    (getsizeof : String → Int) (now : Int) (s : CacheState) (requestPath command : String)
    (s1 : CacheState) (d : CacheObject)
    (hhit : Cache.get now s (cacheKey requestPath) = some (s1, some d)) :
    do_GET upstream getsizeof now s requestPath command =
      some { response := { status := 200, statusMessage := none,
                           headers := d.headers, body := some d.data }
             cacheState := s1
             upstreamConnections := 0 } := by
  simp only [do_GET]
  rw [hhit]
  rfl

theorem cache_hit_replay_witness :
    do_GET (fun _ _ _ => UpstreamResult.otherError) (fun b => (b.length : Int)) 1
        { maxDuration := 100, minDuration := 5, maxBytes := 1000, maxElems := 10,
          numElems := 1, numBytes := 5,
          accessList := [{ url := "h/p", lastAccessTime := 0, expirationTime := 100,
                           size := 5, data := "hello", headers := [("X", "y")] }],
          expireList := [{ url := "h/p", lastAccessTime := 0, expirationTime := 100,
                           size := 5, data := "hello", headers := [("X", "y")] }],
          map := [("h/p", { url := "h/p", lastAccessTime := 0, expirationTime := 100,
                            size := 5, data := "hello", headers := [("X", "y")] })],
          locked := false }
        "http://h/p" "GET" =
      some { response := { status := 200, statusMessage := none, headers := [("X", "y")],
                           body := some "hello" }
             cacheState :=
               { maxDuration := 100, minDuration := 5, maxBytes := 1000, maxElems := 10,
                 numElems := 1, numBytes := 5,
                 accessList := [{ url := "h/p", lastAccessTime := 1, expirationTime := 100,
                                  size := 5, data := "hello", headers := [("X", "y")] }],
                 expireList := [{ url := "h/p", lastAccessTime := 1, expirationTime := 100,
                                  size := 5, data := "hello", headers := [("X", "y")] }],
                 map := [("h/p", { url := "h/p", lastAccessTime := 1, expirationTime := 100,
                                   size := 5, data := "hello", headers := [("X", "y")] })],
                 locked := false }
             upstreamConnections := 0 } :=
  cache_hit_replay (fun _ _ _ => UpstreamResult.otherError) (fun b => (b.length : Int)) 1
    { maxDuration := 100, minDuration := 5, maxBytes := 1000, maxElems := 10,
      numElems := 1, numBytes := 5,
      accessList := [{ url := "h/p", lastAccessTime := 0, expirationTime := 100,
                       size := 5, data := "hello", headers := [("X", "y")] }],
      expireList := [{ url := "h/p", lastAccessTime := 0, expirationTime := 100,
                       size := 5, data := "hello", headers := [("X", "y")] }],
      map := [("h/p", { url := "h/p", lastAccessTime := 0, expirationTime := 100,
                        size := 5, data := "hello", headers := [("X", "y")] })],
      locked := false }
    "http://h/p" "GET"
    { maxDuration := 100, minDuration := 5, maxBytes := 1000, maxElems := 10,
      numElems := 1, numBytes := 5,
      accessList := [{ url := "h/p", lastAccessTime := 1, expirationTime := 100,
                       size := 5, data := "hello", headers := [("X", "y")] }],
      expireList := [{ url := "h/p", lastAccessTime := 1, expirationTime := 100,
                       size := 5, data := "hello", headers := [("X", "y")] }],
      map := [("h/p", { url := "h/p", lastAccessTime := 1, expirationTime := 100,
                        size := 5, data := "hello", headers := [("X", "y")] })],
      locked := false }
    { url := "h/p", lastAccessTime := 1, expirationTime := 100, size := 5, data := "hello",
      headers := [("X", "y")] }
    (by decide)

/-- C7 counterexample: an upstream 204 response is relayed as 204 and
cached, but the subsequent cache hit for the same URL is replayed with
status 200, not the status of the stored response — with no upstream
connection opened on the hit. -/
theorem hit_replay_status_counterexample :
    ((do_GET (fun _ _ _ => UpstreamResult.ok 204 [("X", "y")] "hello")
          (fun b => (b.length : Int) + 37) 0 (Cache.init 100 5 1000 10)
          "http://h/p" "GET").bind fun r1 =>
        (do_GET (fun _ _ _ => UpstreamResult.ok 204 [("X", "y")] "hello")
            (fun b => (b.length : Int) + 37) 1 r1.cacheState "http://h/p" "GET").map fun r2 =>
          (r1.response.status, r2.response.status, r2.upstreamConnections,
            r2.response.body)) =
        some (204, 200, 0, some "hello") ∧
      (204 : Int) ≠ 200 := by
  exact ⟨by decide, by decide⟩

theorem splitOnceChar_append (sep : Char) (a b : List Char) (h : sep ∉ a) :
    splitOnceChar sep (a ++ sep :: b) = (a, b) := by
  induction a with
  | nil => simp [splitOnceChar]
  | cons c rest ih =>
      have hc : c ≠ sep := fun hc => h (hc ▸ List.mem_cons_self c rest)
      have hrest : sep ∉ rest := fun hr => h (List.mem_cons_of_mem c hr)
      show splitOnceChar sep (c :: (rest ++ sep :: b)) = (c :: rest, b)
      simp only [splitOnceChar, if_neg hc, ih hrest]

theorem splitNetloc_append (h p : List Char) (hn : '/' ∉ h) :
    splitNetloc (h ++ '/' :: p) = (h, '/' :: p) := by
  induction h with
  | nil => simp [splitNetloc]
  | cons c rest ih =>
      have hc : c ≠ '/' := fun hc => hn (hc ▸ List.mem_cons_self c rest)
      have hrest : '/' ∉ rest := fun hr => hn (List.mem_cons_of_mem c hr)
      show splitNetloc (c :: (rest ++ '/' :: p)) = (c :: rest, '/' :: p)
      simp only [splitNetloc, if_neg hc, ih hrest]

/-- What the urlparse model computes on an absolute http URL with a query
string and a fragment: netloc, path (query and fragment excluded), query,
fragment. -/
theorem urlparseModel_http (host pth q frag : List Char)
    (hh1 : '#' ∉ host) (hh2 : '?' ∉ host) (hh3 : '/' ∉ host)
    (hp1 : '#' ∉ pth) (hp2 : '?' ∉ pth) (hq : '#' ∉ q) :
    urlparseModel ⟨'h' :: 't' :: 't' :: 'p' :: ':' :: '/' :: '/' ::
        (host ++ '/' :: (pth ++ '?' :: (q ++ '#' :: frag)))⟩ =
      { netloc := ⟨host⟩, path := ⟨'/' :: pth⟩, query := ⟨q⟩, fragment := ⟨frag⟩ } := by
  have hrw1 : 'h' :: 't' :: 't' :: 'p' :: ':' :: '/' :: '/' ::
      (host ++ '/' :: (pth ++ '?' :: (q ++ '#' :: frag))) =
      ('h' :: 't' :: 't' :: 'p' :: ':' :: '/' :: '/' ::
        (host ++ '/' :: (pth ++ '?' :: q))) ++ '#' :: frag := by
    simp [List.append_assoc]
  have hmem1 : '#' ∉ 'h' :: 't' :: 't' :: 'p' :: ':' :: '/' :: '/' ::
      (host ++ '/' :: (pth ++ '?' :: q)) := by
    intro hc
    simp only [List.mem_cons, List.mem_append] at hc
    rcases hc with h | h | h | h | h | h | h | h | h | h | h | h
    · exact absurd h (by decide)
    · exact absurd h (by decide)
    · exact absurd h (by decide)
    · exact absurd h (by decide)
    · exact absurd h (by decide)
    · exact absurd h (by decide)
    · exact absurd h (by decide)
    · exact hh1 h
    · exact absurd h (by decide)
    · exact hp1 h
    · exact absurd h (by decide)
    · exact hq h
  have hrw2 : 'h' :: 't' :: 't' :: 'p' :: ':' :: '/' :: '/' ::
      (host ++ '/' :: (pth ++ '?' :: q)) =
      ('h' :: 't' :: 't' :: 'p' :: ':' :: '/' :: '/' :: (host ++ '/' :: pth)) ++ '?' :: q := by
    simp [List.append_assoc]
  have hmem2 : '?' ∉ 'h' :: 't' :: 't' :: 'p' :: ':' :: '/' :: '/' :: (host ++ '/' :: pth) := by
    intro hc
    simp only [List.mem_cons, List.mem_append] at hc
    rcases hc with h | h | h | h | h | h | h | h | h | h
    · exact absurd h (by decide)
    · exact absurd h (by decide)
    · exact absurd h (by decide)
    · exact absurd h (by decide)
    · exact absurd h (by decide)
    · exact absurd h (by decide)
    · exact absurd h (by decide)
    · exact hh2 h
    · exact absurd h (by decide)
    · exact hp2 h
  unfold urlparseModel
  simp only [hrw1, splitOnceChar_append '#' _ frag hmem1]
  simp only [hrw2, splitOnceChar_append '?' _ q hmem2]
  simp only [splitNetloc_append host pth hh3]

/-- C8 amended: the cache key the handler computes on lines 197 and 233
(`parsedRequest.netloc + parsedRequest.path`) is the destination authority
concatenated with the path, with both the query string and the fragment
excluded (urlparse puts them in separate components the handler never
reads). -/
theorem cache_key_construction (host pth q frag : List Char)
    (hh1 : '#' ∉ host) (hh2 : '?' ∉ host) (hh3 : '/' ∉ host)
    (hp1 : '#' ∉ pth) (hp2 : '?' ∉ pth) (hq : '#' ∉ q) :
    cacheKey ⟨'h' :: 't' :: 't' :: 'p' :: ':' :: '/' :: '/' ::
        (host ++ '/' :: (pth ++ '?' :: (q ++ '#' :: frag)))⟩ =
      ⟨host ++ '/' :: pth⟩ := by
  unfold cacheKey
  rw [urlparseModel_http host pth q frag hh1 hh2 hh3 hp1 hp2 hq]
  rfl

theorem cache_key_construction_witness :
    cacheKey ⟨'h' :: 't' :: 't' :: 'p' :: ':' :: '/' :: '/' ::
        (['h'] ++ '/' :: (['p'] ++ '?' :: (['x', '=', '1'] ++ '#' :: ['f'])))⟩ =
      ⟨['h'] ++ '/' :: ['p']⟩ :=
  cache_key_construction ['h'] ['p'] ['x', '=', '1'] ['f'] (by decide) (by decide)
    (by decide) (by decide) (by decide) (by decide)

/-- C8 counterexample: for the request URL `http://h/p?x=1` the key the
handler uses is `"h/p"`, not the claimed authority-plus-path-with-query
`"h/p?x=1"`; two requests that differ only in their query string share one
cache key, so the second is served from the cache entry stored by the
first (zero upstream connections, first body returned). -/
theorem cache_key_query_counterexample :
    cacheKey "http://h/p?x=1" = "h/p" ∧
      "h/p" ≠ "h" ++ "/p?x=1" ∧
      cacheKey "http://h/p?x=1" = cacheKey "http://h/p?y=2" ∧
      ((do_GET (fun _ _ _ => UpstreamResult.ok 200 [] "B1") (fun b => (b.length : Int) + 37)
            0 (Cache.init 100 5 1000 10) "http://h/p?x=1" "GET").bind fun r1 =>
          (do_GET (fun _ _ _ => UpstreamResult.ok 200 [] "B2")
              (fun b => (b.length : Int) + 37) 1 r1.cacheState
              "http://h/p?y=2" "GET").map fun r2 =>
            (r2.upstreamConnections, r2.response.body)) =
        some (0, some "B1") := by
  exact ⟨by decide, by decide, by decide, by decide⟩

/-- C9 amended: the size recorded for an entry the handler inserts after a
successful cacheable upstream fetch is `sys.getsizeof(body)` — line 233
passes `sys.getsizeof(data)`, the interpreter object size of the body
(byte length plus a constant object overhead in CPython) — not
`len(body)`.  `sys.getsizeof` is the function parameter `getsizeof`. -/
theorem stored_size_is_getsizeof
    (upstream : String → String → String → UpstreamResult) (getsizeof : String → Int)
    (now : Int) (s : CacheState) (requestPath command : String) (s1 : CacheState)
    (st : Int) (hs : List (String × String)) (body : String) (r : GetResult)
    (e : CacheObject) (h : WF s)
    (hmiss : Cache.get now s (cacheKey requestPath) = some (s1, none))
    (hup : upstream (urlparseModel requestPath).netloc command
      (urlparseModel requestPath).path = UpstreamResult.ok st hs body)
    (hst1 : 200 ≤ st) (hst2 : st < 300) (hcc : lastCacheControl hs = "")
    (hr : do_GET upstream getsizeof now s requestPath command = some r)
    (he : lookupKey (cacheKey requestPath) r.cacheState.map = some e) :
    e.size = getsizeof body ∧ e.data = body := by
  obtain ⟨hwf1, hlk1, hnone1, hcfg1⟩ := get_miss_spec h hmiss
  simp only [do_GET] at hr
  rw [hmiss] at hr
  simp only [Option.some_bind] at hr
  rw [hup] at hr
  dsimp only at hr
  rw [if_pos (show 200 ≤ st ∧ st < 300 from ⟨hst1, hst2⟩), if_pos hcc] at hr
  cases hcache : Cache.cache now s1 (cacheKey requestPath) (getsizeof body) now
      s1.maxDuration body hs with
  | none =>
      rw [hcache] at hr
      exact absurd hr (Option.noConfusion)
  | some s2 =>
      rw [hcache] at hr
      have hrc : r.cacheState = s2 := by
        have h2 :
            some ({ response :=
                      { status := st, statusMessage := none, headers := hs,
                        body := some body },
                    cacheState := s2,
                    upstreamConnections := 1 } : GetResult) = some r := hr
        simp only [Option.some.injEq] at h2
        rw [← h2]
      rw [hrc] at he
      unfold Cache.cache at hcache
      by_cases hd : s1.maxDuration < s1.minDuration
      · rw [if_pos hd] at hcache
        simp only [Option.some.injEq] at hcache
        rw [← hcache, hnone1] at he
        exact absurd he (Option.noConfusion)
      · rw [if_neg hd] at hcache
        by_cases hby : getsizeof body > s1.maxBytes
        · rw [if_pos hby] at hcache
          simp only [Option.some.injEq] at hcache
          rw [← hcache, hnone1] at he
          exact absurd he (Option.noConfusion)
        · rw [if_neg hby] at hcache
          rw [if_neg (by simp [hlk1])] at hcache
          have hck : containsKey (cacheKey requestPath) s1.map = false := by
            unfold containsKey
            rw [hnone1]
            rfl
          rw [if_neg (by simp [hck])] at hcache
          cases hci : Cache.checkCacheIntegrity now
              (Cache.insertNew { s1 with locked := true } (cacheKey requestPath)
                (getsizeof body) now
                (if s1.maxDuration ≥ s1.maxDuration then s1.maxDuration else s1.maxDuration)
                body hs) with
          | none =>
              rw [hci] at hcache
              exact absurd hcache (Option.noConfusion)
          | some s3 =>
              rw [hci] at hcache
              have h3 : some ({ s3 with locked := false } : CacheState) = some s2 := hcache
              simp only [Option.some.injEq] at h3
              rw [← h3] at he
              obtain ⟨hwfI, hneI, hsubI, hcfgI, hmono⟩ :=
                checkCacheIntegrity_spec hci (WF_insertNew (hwf1.setLocked true) hck)
              have he2 : lookupKey (cacheKey requestPath) s3.map = some e := he
              have hins := hmono (cacheKey requestPath) e he2
              have hins2 :
                  lookupKey (cacheKey requestPath)
                    ((cacheKey requestPath,
                       { url := cacheKey requestPath, lastAccessTime := now,
                         expirationTime :=
                           now + (if s1.maxDuration ≥ s1.maxDuration then s1.maxDuration
                             else s1.maxDuration),
                         size := getsizeof body, data := body, headers := hs }) ::
                      s1.map) = some e := hins
              rw [lookupKey_cons_self] at hins2
              simp only [Option.some.injEq] at hins2
              rw [← hins2]
              exact ⟨rfl, rfl⟩

theorem stored_size_witness :
    ({ url := "h/p", lastAccessTime := 0, expirationTime := 100, size := 42,
       data := "hello", headers := [("A", "b")] } : CacheObject).size =
        (fun b => (b.length : Int) + 37) "hello" ∧
      ({ url := "h/p", lastAccessTime := 0, expirationTime := 100, size := 42,
         data := "hello", headers := [("A", "b")] } : CacheObject).data = "hello" :=
  stored_size_is_getsizeof (fun _ _ _ => UpstreamResult.ok 204 [("A", "b")] "hello")
    (fun b => (b.length : Int) + 37) 0 (Cache.init 100 5 1000 10) "http://h/p" "GET"
    (Cache.init 100 5 1000 10) 204 [("A", "b")] "hello"
    { response := { status := 204, statusMessage := none, headers := [("A", "b")],
                    body := some "hello" }
      cacheState :=
        { maxDuration := 100, minDuration := 5, maxBytes := 1000, maxElems := 10,
          numElems := 1, numBytes := 42,
          accessList := [{ url := "h/p", lastAccessTime := 0, expirationTime := 100,
                           size := 42, data := "hello", headers := [("A", "b")] }],
          expireList := [{ url := "h/p", lastAccessTime := 0, expirationTime := 100,
                           size := 42, data := "hello", headers := [("A", "b")] }],
          map := [("h/p", { url := "h/p", lastAccessTime := 0, expirationTime := 100,
                            size := 42, data := "hello", headers := [("A", "b")] })],
          locked := false }
      upstreamConnections := 1 }
    { url := "h/p", lastAccessTime := 0, expirationTime := 100, size := 42,
      data := "hello", headers := [("A", "b")] }
    ⟨by decide, by decide, by decide, by decide, by decide, by decide, by decide, by decide⟩
    (by decide) rfl (by decide) (by decide) rfl (by decide) (by decide)

/-- C9 counterexample: with `sys.getsizeof` modelled as body length plus
the CPython string object overhead (37 bytes), the entry inserted for a
5-byte body records size 42, which is not `len(body) = 5`. -/
theorem stored_size_counterexample :
    ((do_GET (fun _ _ _ => UpstreamResult.ok 200 [("A", "b")] "hello")
          (fun b => (b.length : Int) + 37) 0 (Cache.init 100 5 1000 10)
          "http://h/p" "GET").bind fun r => lookupKey "h/p" r.cacheState.map) =
        some { url := "h/p", lastAccessTime := 0, expirationTime := 100, size := 42,
               data := "hello", headers := [("A", "b")] } ∧
      (42 : Int) ≠ ("hello".length : Int) :=
  ⟨by decide, by decide⟩
